import Mathlib

/-!
# Verification of the rucline line-editor core

A shallow embedding of the `rucline` interactive line reader: the Unicode
buffer (`src/buffer/mod.rs`), its navigation primitives
(`src/buffer/navigation.rs`), the default key-to-action resolution
(`src/actions.rs`), and the prompt session context with its suggestion
overlay (`src/prompt/context.rs`, `src/prompt/mod.rs`).

Strings are modelled as `List Char` (Rust `String` is a UTF-8 sequence of
Unicode scalar values); byte offsets are recovered through `Char.utf8Size`,
which agrees with Rust's `char::len_utf8`.

The file is organised as definitions first, theorems second.
-/

namespace Rucline

/-! ## Byte-offset primitives -/

/-- Total UTF-8 byte length of a sequence of scalar values
(Rust `str::len`). -/
def utf8Len : List Char → Nat
  | [] => 0
  | c :: cs => c.utf8Size + utf8Len cs

/-- The chars of `s` that lie wholly inside the first `n` bytes
(the prefix `&s[..n]` when `n` is a char boundary). -/
def takeBytes : List Char → Nat → List Char
  | [], _ => []
  | c :: cs, n => if c.utf8Size ≤ n then c :: takeBytes cs (n - c.utf8Size) else []

/-- The chars of `s` from byte offset `n` on
(the suffix `&s[n..]` when `n` is a char boundary). -/
def dropBytes : List Char → Nat → List Char
  | [], _ => []
  | c :: cs, n => if c.utf8Size ≤ n then dropBytes cs (n - c.utf8Size) else c :: cs

/-- Position `i` is a Unicode scalar (char) boundary of `s`, i.e. a legal byte
position for a cursor (Rust `str::is_char_boundary`). -/
def IsBoundary (s : List Char) (i : Nat) : Prop :=
  ∃ k, k ≤ s.length ∧ i = utf8Len (s.take k)

instance (s : List Char) (i : Nat) : Decidable (IsBoundary s i) :=
  decidable_of_iff
    (((List.range (s.length + 1)).any fun k => utf8Len (s.take k) == i) = true) <| by
    rw [List.any_eq_true]
    constructor
    · rintro ⟨k, hk, h⟩
      rw [List.mem_range] at hk
      rw [beq_iff_eq] at h
      exact ⟨k, by omega, h.symm⟩
    · rintro ⟨k, hk, rfl⟩
      exact ⟨k, List.mem_range.mpr (by omega), beq_iff_eq.mpr rfl⟩

/-! ## The action model (`src/actions.rs`) -/

/-- Mirrors `actions.rs`: the direction an action may take. -/
inductive Direction where
  | Forward
  | Backward
deriving Repr, DecidableEq

/-- Mirrors `actions.rs`: the range an action should extend for. -/
inductive Range where
  | Line
  | Word
  | Single
deriving Repr, DecidableEq

/-- Mirrors `actions.rs`: the scope an action should be applied on. -/
inductive Scope where
  | WholeLine
  | WholeWord
  | Relative (range : Range) (direction : Direction)
deriving Repr, DecidableEq

/-- Mirrors `actions.rs`: an action that can be performed while reading a line. -/
inductive Action where
  | Write (c : Char)
  | Delete (scope : Scope)
  | Move (range : Range) (direction : Direction)
  | Suggest (direction : Direction)
  | Complete (range : Range)
  | Accept
  | Cancel
  | NoOp
deriving Repr, DecidableEq

/-- Mirrors `crossterm::event::KeyCode`, restricted to the codes the spec's event
source must cover plus representatives of the unlisted codes. -/
inductive KeyCode where
  | Enter
  | Esc
  | Tab
  | BackTab
  | Backspace
  | Delete
  | Right
  | Left
  | Home
  | End
  | Char (c : Char)
  | Up
  | Down
  | PageUp
  | PageDown
  | Insert
  | F (n : Nat)
  | Null
deriving Repr, DecidableEq

/-- Mirrors `crossterm::event::KeyModifiers` as a set of flags. -/
structure Modifiers where
  shift : Bool
  control : Bool
  alt : Bool
deriving Repr, DecidableEq

/-- The `CONTROL` modifier state. -/
def Modifiers.CONTROL : Modifiers := ⟨false, true, false⟩

/-- The `ALT` modifier state. -/
def Modifiers.ALT : Modifiers := ⟨false, false, true⟩

/-- The empty modifier state. -/
def Modifiers.NONE : Modifiers := ⟨false, false, false⟩

/-- Mirrors `crossterm::event::KeyEvent`: a key code with its modifiers. -/
structure Event where
  code : KeyCode
  modifiers : Modifiers
deriving Repr, DecidableEq

/-- Mirrors `actions.rs` `control_pressed`: the modifiers equal exactly `CONTROL`. -/
def control_pressed (e : Event) : Bool := e.modifiers == Modifiers.CONTROL

/-- Mirrors `actions.rs` `alt_pressed`: the modifiers equal exactly `ALT`. -/
def alt_pressed (e : Event) : Bool := e.modifiers == Modifiers.ALT

/-! ## Word segmentation and navigation (`src/buffer/navigation.rs`)

`buffer/navigation.rs` builds on
`unicode_segmentation::UnicodeSegmentation::split_word_bound_indices`, a
function of an external crate (the spec's "standard Unicode word
segmentation").  The navigation primitives are therefore parameterized over
a segmentation function `seg`; `ValidSeg` captures the properties any word
segmentation enjoys (the segments are non-empty and concatenate back to the
input), and `splitRuns` below is a concrete executable instance. -/

/-- A genuine segmentation: non-empty segments concatenating to the input. -/
def ValidSeg (seg : List Char → List (List Char)) : Prop :=
  ∀ s, (seg s).flatten = s ∧ ∀ w ∈ seg s, w ≠ []

/-- Pair each segment with its starting byte offset, mirroring the indices
produced by `split_word_bound_indices`. -/
def withOffsets : Nat → List (List Char) → List (Nat × List Char)
  | _, [] => []
  | n, w :: ws => (n, w) :: withOffsets (n + utf8Len w) ws

/-- Mirrors `pair.1.chars().next().map_or(true, |c| !c.is_whitespace())`. -/
def headNotWs : List Char → Bool
  | [] => true
  | c :: _ => !c.isWhitespace

/-- Mirrors `navigation::next_word`: the start of the first word-bound segment
strictly after `pivot` that does not begin with whitespace. -/
def next_word (seg : List Char → List (List Char)) (pivot : Nat)
    (s : List Char) : Nat :=
  if pivot = utf8Len s then pivot
  else
    match (withOffsets 0 (seg s)).find?
        (fun p => decide (pivot < p.1) && headNotWs p.2) with
    | some p => p.1
    | none => utf8Len s

/-- Mirrors `navigation::previous_word`: the start of the last word-bound segment
strictly before `pivot` that does not begin with whitespace
(`rfind` searches from the back). -/
def previous_word (seg : List Char → List (List Char)) (pivot : Nat)
    (s : List Char) : Nat :=
  if pivot = 0 then pivot
  else
    match (withOffsets 0 (seg s)).reverse.find?
        (fun p => decide (p.1 < pivot) && headNotWs p.2) with
    | some p => p.1
    | none => 0

/-- Mirrors `navigation::previous_word_end`: the end of the last word-bound segment
that ends strictly before `pivot` and does not begin with whitespace. -/
def previous_word_end (seg : List Char → List (List Char)) (pivot : Nat)
    (s : List Char) : Nat :=
  if pivot = 0 then pivot
  else
    match (withOffsets 0 (seg s)).reverse.find?
        (fun p => decide (p.1 + utf8Len p.2 < pivot) && headNotWs p.2) with
    | some p => p.1 + utf8Len p.2
    | none => 0

/-- Mirrors `navigation::next_scalar_value`: `string[index..].char_indices().nth(1)`
yields the offset of the second char of the suffix. -/
def next_scalar_value (index : Nat) (s : List Char) : Nat :=
  match dropBytes s index with
  | c0 :: _ :: _ => index + c0.utf8Size
  | _ => utf8Len s

/-- Mirrors `string[..i].char_indices().next_back()`: byte index and value of the
last char of the prefix ending at byte `i`. -/
def charIndicesNextBack (s : List Char) (i : Nat) : Option (Nat × Char) :=
  match (takeBytes s i).getLast? with
  | none => none
  | some c => some (utf8Len (takeBytes s i) - c.utf8Size, c)

/-- Mirrors `navigation::previous_scalar_value`. -/
def previous_scalar_value (index : Nat) (s : List Char) : Nat :=
  match charIndicesNextBack s index with
  | some (newIndex, _) => newIndex
  | none => 0

/-- Whether two chars belong to the same run of `splitRuns`. -/
def sameRun (a b : Char) : Bool :=
  (a.isAlphanum && b.isAlphanum) || (a == ' ' && b == ' ')

/-- Modelled from the spec: "Uses standard Unicode word segmentation" — the
`unicode_segmentation` crate is external to this repository.  This executable
model agrees with UAX#29 word bounds on text made of ASCII alphanumeric words
and spaces: maximal alphanumeric runs and maximal space runs are segments,
and any other char forms its own segment. -/
def splitRuns : List Char → List (List Char)
  | [] => []
  | c :: cs =>
    match splitRuns cs with
    | [] => [[c]]
    | [] :: ws => [c] :: [] :: ws
    | (d :: w) :: ws =>
      if sameRun c d then (c :: d :: w) :: ws else [c] :: (d :: w) :: ws

/-! ## The buffer (`src/buffer/mod.rs`) -/

/-- Mirrors `buffer/mod.rs`: a string that also keeps track of its cursor, a byte
offset into the UTF-8 encoding. -/
structure Buffer where
  string : List Char
  cursor : Nat
deriving Repr, DecidableEq

/-- Mirrors `Buffer::new` / `Buffer::default`. -/
def Buffer.new : Buffer := ⟨[], 0⟩

/-- Mirrors `impl From<S: AsRef<str>> for Buffer`: cursor at the end. -/
def Buffer.from (s : List Char) : Buffer := ⟨s, utf8Len s⟩

/-- Invariant B1: the cursor never exceeds the byte length of the text. -/
def Buffer.B1 (b : Buffer) : Prop := b.cursor ≤ utf8Len b.string

/-- Invariant B2: the cursor falls on a Unicode scalar boundary. -/
def Buffer.B2 (b : Buffer) : Prop := IsBoundary b.string b.cursor

/-- B1 and B2 together. -/
def Buffer.Valid (b : Buffer) : Prop := b.B1 ∧ b.B2

instance (b : Buffer) : Decidable b.B1 := by
  unfold Buffer.B1
  infer_instance

instance (b : Buffer) : Decidable b.B2 := by
  unfold Buffer.B2
  infer_instance

instance (b : Buffer) : Decidable b.Valid := by
  unfold Buffer.Valid
  infer_instance

/-- Mirrors `str::len` seen through `Buffer`'s `Deref`. -/
def Buffer.len (b : Buffer) : Nat := utf8Len b.string

/-- Mirrors `Buffer::go_to_end`. -/
def Buffer.go_to_end (b : Buffer) : Buffer := { b with cursor := utf8Len b.string }

/-- Mirrors `Buffer::clear`. -/
def Buffer.clear : Buffer → Buffer := fun _ => ⟨[], 0⟩

/-- Mirrors `Buffer::write`: `self.string.insert(self.cursor, c); self.cursor += c.len_utf8()`. -/
def Buffer.write (b : Buffer) (c : Char) : Buffer :=
  { string := takeBytes b.string b.cursor ++ c :: dropBytes b.string b.cursor
    cursor := b.cursor + c.utf8Size }

/-- Mirrors `Buffer::write_str`: `self.string.insert_str(self.cursor, string);
self.cursor += string.len()`. -/
def Buffer.write_str (b : Buffer) (t : List Char) : Buffer :=
  { string := takeBytes b.string b.cursor ++ t ++ dropBytes b.string b.cursor
    cursor := b.cursor + utf8Len t }

/-- Mirrors `Buffer::write_range`.  The `Range::Single` arm calls
`string.chars().next().unwrap()`, which panics when `string` is empty;
the panic is modelled as `none`. -/
def Buffer.write_range (seg : List Char → List (List Char)) (b : Buffer)
    (t : List Char) (range : Range) : Option Buffer :=
  match range with
  | .Line => some (b.write_str t)
  | .Word =>
    let index := next_word seg 0 t
    some (b.write_str (takeBytes t index))
  | .Single =>
    match t.head? with
    | some c => some (b.write c)
    | none => none

/-- Mirrors `String::remove(i)`: delete the char starting at byte `i`. -/
def removeAt (s : List Char) (i : Nat) : List Char :=
  takeBytes s i ++ (dropBytes s i).tail

/-- Mirrors `String::drain(a..b)`: delete the bytes in `[a, b)`. -/
def drainBytes (s : List Char) (a b : Nat) : List Char :=
  takeBytes s a ++ dropBytes s b

/-- The `else if` of the whitespace adjustment in `Buffer::delete(WholeWord)`:
`self.string[..end].chars().next_back().filter(is_whitespace)` shortens the
span from the right by one whitespace char. -/
def wwAdjustEnd (s : List Char) (start stop : Nat) : Nat × Nat :=
  match (takeBytes s stop).getLast? with
  | some c => if c.isWhitespace then (start, stop - c.utf8Size) else (start, stop)
  | none => (start, stop)

/-- The whitespace adjustment of `Buffer::delete(WholeWord)`: "if not in the
start and there is white space at the boundary, save one white space" — the
leading whitespace of the span if present, otherwise the trailing one. -/
def wwAdjust (s : List Char) (start stop : Nat) : Nat × Nat :=
  if start > 0 then
    match (dropBytes s start).head? with
    | some c =>
      if c.isWhitespace then (start + c.utf8Size, stop) else wwAdjustEnd s start stop
    | none => wwAdjustEnd s start stop
  else (start, stop)

/-- The byte span removed by `Buffer::delete(WholeWord)`:
`start = previous_word_end(cursor)`, `end = next_word(cursor)`, whitespace
adjusted. -/
def wholeWordSpan (seg : List Char → List (List Char)) (s : List Char)
    (cursor : Nat) : Nat × Nat :=
  wwAdjust s (previous_word_end seg cursor s) (next_word seg cursor s)

/-- Mirrors `Buffer::delete`, arm by arm from the `match scope` in `buffer/mod.rs`. -/
def Buffer.delete (seg : List Char → List (List Char)) (b : Buffer)
    (scope : Scope) : Buffer :=
  match scope with
  | .Relative .Single .Backward =>
    if b.cursor > 0 then
      match charIndicesNextBack b.string b.cursor with
      | some (index, _) => ⟨removeAt b.string index, index⟩
      | none => b
    else b
  | .Relative .Single .Forward =>
    if b.cursor < utf8Len b.string then
      { b with string := removeAt b.string b.cursor }
    else b
  | .Relative .Word .Backward =>
    let index := previous_word seg b.cursor b.string
    ⟨drainBytes b.string index b.cursor, index⟩
  | .Relative .Word .Forward =>
    let index := next_word seg b.cursor b.string
    { b with string := drainBytes b.string b.cursor index }
  | .Relative .Line .Backward =>
    ⟨drainBytes b.string 0 b.cursor, 0⟩
  | .Relative .Line .Forward =>
    { b with string := drainBytes b.string b.cursor (utf8Len b.string) }
  | .WholeWord =>
    let adjusted := wholeWordSpan seg b.string b.cursor
    ⟨drainBytes b.string adjusted.1 adjusted.2, adjusted.1⟩
  | .WholeLine => b.clear

/-- Mirrors `Buffer::move_cursor`. -/
def Buffer.move_cursor (seg : List Char → List (List Char)) (b : Buffer)
    (range : Range) (direction : Direction) : Buffer :=
  match range, direction with
  | .Single, .Backward => { b with cursor := previous_scalar_value b.cursor b.string }
  | .Single, .Forward => { b with cursor := next_scalar_value b.cursor b.string }
  | .Word, .Backward => { b with cursor := previous_word seg b.cursor b.string }
  | .Word, .Forward => { b with cursor := next_word seg b.cursor b.string }
  | .Line, .Backward => { b with cursor := 0 }
  | .Line, .Forward =>
    if b.cursor < utf8Len b.string then b.go_to_end else b

/-- The edit operations quantified over in claim C1. -/
inductive Op where
  | write (c : Char)
  | write_str (t : List Char)
  | delete (scope : Scope)
  | move_cursor (range : Range) (direction : Direction)
deriving Repr, DecidableEq

/-- Apply one edit operation to a buffer. -/
def applyOp (seg : List Char → List (List Char)) (b : Buffer) : Op → Buffer
  | .write c => b.write c
  | .write_str t => b.write_str t
  | .delete scope => b.delete seg scope
  | .move_cursor range direction => b.move_cursor seg range direction

/-! ## Default key-to-action resolution (`src/actions.rs`) -/

/-- Mirrors `actions.rs` `complete_if_at_end_else_move`. -/
def complete_if_at_end_else_move (b : Buffer) (range : Range) : Action :=
  if b.cursor == b.len then
    if range == Range.Word then .Complete .Word else .Complete .Line
  else .Move range .Forward

/-- Mirrors `actions.rs` `default_action`: the fixed default mapping.  The Rust
`match` on `char` literals becomes a chain of equality tests in source
order. -/
def default_action (e : Event) (b : Buffer) : Action :=
  match e.code with
  | .Enter => .Accept
  | .Esc => .Cancel
  | .Tab => .Suggest .Forward
  | .BackTab => .Suggest .Backward
  | .Backspace => .Delete (.Relative .Single .Backward)
  | .Delete => .Delete (.Relative .Single .Forward)
  | .Right => complete_if_at_end_else_move b .Single
  | .Left => .Move .Single .Backward
  | .Home => .Move .Line .Backward
  | .End => complete_if_at_end_else_move b .Line
  | .Char c =>
    if control_pressed e then
      if c == 'm' || c == 'd' then .Accept
      else if c == 'c' then .Cancel
      else if c == 'b' then .Move .Single .Backward
      else if c == 'f' then complete_if_at_end_else_move b .Single
      else if c == 'a' then .Move .Line .Backward
      else if c == 'e' then complete_if_at_end_else_move b .Line
      else if c == 'j' then .Delete (.Relative .Word .Backward)
      else if c == 'k' then .Delete (.Relative .Word .Forward)
      else if c == 'h' then .Delete (.Relative .Line .Backward)
      else if c == 'l' then .Delete (.Relative .Line .Forward)
      else if c == 'w' then .Delete .WholeWord
      else if c == 'u' then .Delete .WholeLine
      else .NoOp
    else if alt_pressed e then
      if c == 'b' then .Move .Word .Backward
      else if c == 'f' then complete_if_at_end_else_move b .Word
      else .NoOp
    else .Write c
  | _ => .NoOp

/-- Mirrors `actions.rs` `action_for`: consult the override, fall back to the
default mapping. -/
def action_for (overrider : Option (Event → Buffer → Option Action))
    (e : Event) (b : Buffer) : Action :=
  match overrider with
  | some ov => (ov e b).getD (default_action e b)
  | none => default_action e b

/-- The default mapping table exactly as claim C4 states it, transcribed row
by row from the claim's words (not from the code); in particular its final
row maps every remaining event — including `Char` events whose modifier set
is neither exactly `Ctrl` nor exactly `Alt` nor free of both — to `NoOp`. -/
def claimed_table_action (e : Event) (b : Buffer) : Action :=
  let ctrl := e.modifiers == Modifiers.CONTROL
  let alt := e.modifiers == Modifiers.ALT
  let atEnd := b.cursor == utf8Len b.string
  if e.code == .Enter || (ctrl && (e.code == .Char 'm' || e.code == .Char 'd')) then
    .Accept
  else if e.code == .Esc || (ctrl && e.code == .Char 'c') then .Cancel
  else if e.code == .Tab then .Suggest .Forward
  else if e.code == .BackTab then .Suggest .Backward
  else if e.code == .Backspace then .Delete (.Relative .Single .Backward)
  else if e.code == .Delete then .Delete (.Relative .Single .Forward)
  else if e.code == .Left || (ctrl && e.code == .Char 'b') then .Move .Single .Backward
  else if e.code == .Right || (ctrl && e.code == .Char 'f') then
    if atEnd then .Complete .Line else .Move .Single .Forward
  else if e.code == .Home || (ctrl && e.code == .Char 'a') then .Move .Line .Backward
  else if e.code == .End || (ctrl && e.code == .Char 'e') then
    if atEnd then .Complete .Line else .Move .Line .Forward
  else if alt && e.code == .Char 'b' then .Move .Word .Backward
  else if alt && e.code == .Char 'f' then
    if atEnd then .Complete .Word else .Move .Word .Forward
  else if ctrl && e.code == .Char 'j' then .Delete (.Relative .Word .Backward)
  else if ctrl && e.code == .Char 'k' then .Delete (.Relative .Word .Forward)
  else if ctrl && e.code == .Char 'h' then .Delete (.Relative .Line .Backward)
  else if ctrl && e.code == .Char 'l' then .Delete (.Relative .Line .Forward)
  else if ctrl && e.code == .Char 'w' then .Delete .WholeWord
  else if ctrl && e.code == .Char 'u' then .Delete .WholeLine
  else
    match e.code with
    | .Char c =>
      if !e.modifiers.control && !e.modifiers.alt then .Write c else .NoOp
    | _ => .NoOp

/-- The table of claim C4 with its final rows amended to what the code does:
a `Char` event resolves to `Write c` for every modifier set other than
exactly `Ctrl` and exactly `Alt` (so e.g. `Ctrl+Alt+c` writes `c`); `NoOp`
is only produced for unlisted key codes and for `Ctrl`/`Alt` chars outside
the tables. -/
def amended_table_action (e : Event) (b : Buffer) : Action :=
  let ctrl := e.modifiers == Modifiers.CONTROL
  let alt := e.modifiers == Modifiers.ALT
  let atEnd := b.cursor == utf8Len b.string
  if e.code == .Enter || (ctrl && (e.code == .Char 'm' || e.code == .Char 'd')) then
    .Accept
  else if e.code == .Esc || (ctrl && e.code == .Char 'c') then .Cancel
  else if e.code == .Tab then .Suggest .Forward
  else if e.code == .BackTab then .Suggest .Backward
  else if e.code == .Backspace then .Delete (.Relative .Single .Backward)
  else if e.code == .Delete then .Delete (.Relative .Single .Forward)
  else if e.code == .Left || (ctrl && e.code == .Char 'b') then .Move .Single .Backward
  else if e.code == .Right || (ctrl && e.code == .Char 'f') then
    if atEnd then .Complete .Line else .Move .Single .Forward
  else if e.code == .Home || (ctrl && e.code == .Char 'a') then .Move .Line .Backward
  else if e.code == .End || (ctrl && e.code == .Char 'e') then
    if atEnd then .Complete .Line else .Move .Line .Forward
  else if alt && e.code == .Char 'b' then .Move .Word .Backward
  else if alt && e.code == .Char 'f' then
    if atEnd then .Complete .Word else .Move .Word .Forward
  else if ctrl && e.code == .Char 'j' then .Delete (.Relative .Word .Backward)
  else if ctrl && e.code == .Char 'k' then .Delete (.Relative .Word .Forward)
  else if ctrl && e.code == .Char 'h' then .Delete (.Relative .Line .Backward)
  else if ctrl && e.code == .Char 'l' then .Delete (.Relative .Line .Forward)
  else if ctrl && e.code == .Char 'w' then .Delete .WholeWord
  else if ctrl && e.code == .Char 'u' then .Delete .WholeLine
  else
    match e.code with
    | .Char c => if ctrl || alt then .NoOp else .Write c
    | _ => .NoOp

/-! ## Prompt navigation over char slices (`src/prompt/navigation.rs`)

`Context::complete` uses the char-indexed navigation of
`prompt/navigation.rs` (plain `while` loops, no segmentation crate). -/

/-- Run a `while index < end && p(s[index])` loop: the list argument is the
suffix of the text at `index`, advanced in lockstep with the counter. -/
def runWhile (p : Char → Bool) : List Char → Nat → Nat
  | [], i => i
  | c :: cs, i => if p c then runWhile p cs (i + 1) else i

namespace PromptNav

/-- Mirrors `prompt/navigation.rs` `next_word`: skip the chars of the current word,
then the trailing whitespace. -/
def next_word (pivot : Nat) (s : List Char) : Nat :=
  if pivot = s.length then pivot
  else
    let index := runWhile (fun c => !c.isWhitespace) (s.drop pivot) pivot
    runWhile (fun c => c.isWhitespace) (s.drop index) index

end PromptNav

/-! ## The session context (`src/prompt/context.rs`) -/

/-- Mirrors `prompt/context.rs` `Suggestions`: the drop-down overlay state. -/
structure Suggestions where
  index : Option Nat
  options : List Buffer
deriving Repr, DecidableEq

/-- Mirrors `Suggestions::new`: `Forward` opens on the first option, `Backward` on
the last; the option strings become buffers with the cursor at the end. -/
def Suggestions.new (options : List (List Char)) (direction : Direction) :
    Suggestions :=
  { index := some (match direction with
      | .Forward => 0
      | .Backward => options.length - 1)
    options := options.map Buffer.from }

/-- Mirrors `Suggestions::cycle`. -/
def Suggestions.cycle (s : Suggestions) (direction : Direction) : Suggestions :=
  let last_index := s.options.length - 1
  { s with
    index :=
      match direction, s.index with
      | .Forward, none => some 0
      | .Forward, some index =>
        if index < last_index then some (index + 1) else none
      | .Backward, none => some last_index
      | .Backward, some 0 => none
      | .Backward, some (index + 1) => some index }

/-- Mirrors `Suggestions::take`: `swap_remove(index)` returns `options[index]` and
panics when out of bounds; the panic collapses to `none` here — claim C10's
in-bounds invariant shows the two agree on every reachable state. -/
def Suggestions.take (s : Suggestions) : Option Buffer :=
  match s.index with
  | some index => s.options.get? index
  | none => none

/-- The invariant of claim C10: a live overlay has a non-empty option list
and an index that is `none` or in bounds. -/
def SuggInv (s : Suggestions) : Prop :=
  s.options ≠ [] ∧ ∀ k, s.index = some k → k < s.options.length

/-- Mirrors `prompt/context.rs` `Context`, restricted to its data: the buffer, the
current inline completion, and the optional suggestion overlay. -/
structure Ctx where
  buffer : Buffer
  completion : Option (List Char)
  suggestions : Option Suggestions
deriving Repr, DecidableEq

/-- The read-only hooks the context borrows: the inline completer and the
drop-down suggester (`src/completion` trait objects). -/
structure Hooks where
  completer : Option (Buffer → Option (List Char))
  suggester : Option (Buffer → List (List Char))

/-- Modelled from the spec: `Buffer::at_end` is called at
`src/prompt/context.rs:61` but not defined under `src/`; the spec's
`cursor == len` test (§4.3, §4.6) gives its meaning. -/
def Buffer.at_end (b : Buffer) : Bool := b.cursor == utf8Len b.string

/-- Mirrors `Context::try_take_suggestion`: `self.suggestions.take()` always clears
the overlay; a selected option (if any) replaces the buffer. -/
def Ctx.try_take_suggestion (ctx : Ctx) : Ctx :=
  match ctx.suggestions with
  | none => ctx
  | some s =>
    match s.take with
    | some b => { ctx with suggestions := none, buffer := b }
    | none => { ctx with suggestions := none }

/-- Mirrors `Context::update_completion`. -/
def Ctx.update_completion (H : Hooks) (ctx : Ctx) : Ctx :=
  match H.completer with
  | some completer => { ctx with completion := completer ctx.buffer }
  | none => ctx

/-- Mirrors `Context::write`; the `Nat` counts writer redraw calls. -/
def Ctx.write (H : Hooks) (ctx : Ctx) (c : Char) : Ctx × Nat :=
  let ctx := ctx.try_take_suggestion
  let ctx := { ctx with buffer := ctx.buffer.write c }
  (ctx.update_completion H, 1)

/-- Mirrors `Context::delete`. -/
def Ctx.delete (H : Hooks) (seg : List Char → List (List Char)) (ctx : Ctx)
    (scope : Scope) : Ctx × Nat :=
  let ctx := ctx.try_take_suggestion
  let ctx := { ctx with buffer := ctx.buffer.delete seg scope }
  (ctx.update_completion H, 1)

/-- Mirrors `Context::complete`: with no completion pending it returns `Ok(())`
without printing (0 redraws); `completion[0]` on an empty completion panics
(`none`). -/
def Ctx.complete (H : Hooks) (ctx : Ctx) (range : Range) : Option (Ctx × Nat) :=
  let ctx := { ctx with buffer := ctx.buffer.go_to_end }
  match ctx.completion with
  | some completion =>
    match range with
    | .Line =>
      let ctx := { ctx with buffer := ctx.buffer.write_str completion }
      some (ctx.update_completion H, 1)
    | .Word =>
      let index := PromptNav.next_word 0 completion
      let ctx := { ctx with buffer := ctx.buffer.write_str (completion.take index) }
      some (ctx.update_completion H, 1)
    | .Single =>
      match completion with
      | c :: _ =>
        some (({ ctx with buffer := ctx.buffer.write c }).update_completion H, 1)
      | [] => none
  | none => some (ctx, 0)

/-- Mirrors `Context::move_cursor`: at the end of the buffer a forward move turns
into `complete`. -/
def Ctx.move_cursor (H : Hooks) (seg : List Char → List (List Char))
    (ctx : Ctx) (range : Range) (direction : Direction) : Option (Ctx × Nat) :=
  let ctx := ctx.try_take_suggestion
  if ctx.buffer.at_end && direction == Direction.Forward then
    ctx.complete H range
  else
    some ({ ctx with buffer := ctx.buffer.move_cursor seg range direction }, 1)

/-- Mirrors `Context::suggest`. -/
def Ctx.suggest (H : Hooks) (ctx : Ctx) (direction : Direction) : Ctx × Nat :=
  match H.suggester with
  | some suggester =>
    match ctx.suggestions with
    | some s =>
      let s := s.cycle direction
      let ctx := { ctx with suggestions := some s }
      match s.index with
      | some _ => (ctx, 1)
      | none => (ctx, 1)
    | none =>
      let options := suggester ctx.buffer
      if options.isEmpty then (ctx, 1)
      else ({ ctx with suggestions := some (Suggestions.new options direction) }, 1)
  | none => (ctx, 1)

/-- Mirrors `Context::is_suggesting`. -/
def Ctx.is_suggesting (ctx : Ctx) : Bool := ctx.suggestions.isSome

/-- Mirrors `Context::cancel_suggestion`. -/
def Ctx.cancel_suggestion (ctx : Ctx) : Ctx × Nat :=
  ({ ctx with suggestions := none }, 1)

/-- Mirrors `Context::buffer_as_string`. -/
def Ctx.buffer_as_string (ctx : Ctx) : List Char :=
  ctx.try_take_suggestion.buffer.string

/-- Modelled from the spec: `Outcome::Canceled(context.into())` at
`src/prompt/mod.rs:187` uses a `From<Context> for Buffer` impl that is not
under `src/`; per the spec and the `Outcome` docs the canceled outcome
carries the current buffer with text and cursor intact. -/
def Ctx.into_buffer (ctx : Ctx) : Buffer := ctx.buffer

/-- Mirrors `prompt/mod.rs` `Outcome`. -/
inductive Outcome where
  | Accepted (s : List Char)
  | Canceled (b : Buffer)
deriving Repr, DecidableEq

/-- What one iteration of the `read_line` event loop does: continue with a
new context (and a count of writer redraw calls), or return an outcome. -/
inductive StepResult where
  | cont (ctx : Ctx) (redraws : Nat)
  | done (outcome : Outcome)
deriving Repr, DecidableEq

/-- One iteration of the `read_line` event loop (`prompt/mod.rs:176-191`),
given the already-resolved action; `none` models a panic. -/
def step (H : Hooks) (seg : List Char → List (List Char)) (ctx : Ctx)
    (action : Action) : Option StepResult :=
  match action with
  | .Write c =>
    let r := ctx.write H c
    some (.cont r.1 r.2)
  | .Delete scope =>
    let r := ctx.delete H seg scope
    some (.cont r.1 r.2)
  | .Move range direction =>
    (ctx.move_cursor H seg range direction).map fun r => .cont r.1 r.2
  | .Complete range =>
    (ctx.complete H range).map fun r => .cont r.1 r.2
  | .Suggest direction =>
    let r := ctx.suggest H direction
    some (.cont r.1 r.2)
  | .NoOp => some (.cont ctx 0)
  | .Cancel =>
    if ctx.is_suggesting then
      let r := ctx.cancel_suggestion
      some (.cont r.1 r.2)
    else some (.done (.Canceled ctx.into_buffer))
  | .Accept => some (.done (.Accepted ctx.buffer_as_string))

/-- The invariant of claim C10 lifted to the context: whenever the overlay
exists it satisfies `SuggInv`. -/
def CtxInv (ctx : Ctx) : Prop :=
  ∀ s, ctx.suggestions = some s → SuggInv s

/-- Materialization (claim C2): the overlay's selected option replaces the
buffer and the overlay closes. -/
def materialize (ctx : Ctx) (b : Buffer) : Ctx :=
  { ctx with suggestions := none, buffer := b }

/-! # Theorems -/

/-! ## Byte-offset primitives -/

@[simp] theorem utf8Len_nil : utf8Len [] = 0 := rfl

@[simp] theorem utf8Len_cons (c : Char) (cs : List Char) :
    utf8Len (c :: cs) = c.utf8Size + utf8Len cs := rfl

theorem utf8Len_append (p q : List Char) :
    utf8Len (p ++ q) = utf8Len p + utf8Len q := by
  induction p with
  | nil => simp
  | cons c cs ih => simp [ih, Nat.add_assoc]

@[simp] theorem takeBytes_nil (n : Nat) : takeBytes [] n = [] := rfl

@[simp] theorem dropBytes_nil (n : Nat) : dropBytes [] n = [] := rfl

@[simp] theorem takeBytes_zero (s : List Char) : takeBytes s 0 = [] := by
  cases s with
  | nil => rfl
  | cons c cs =>
    have := c.utf8Size_pos
    simp only [takeBytes]
    rw [if_neg]
    omega

@[simp] theorem dropBytes_zero (s : List Char) : dropBytes s 0 = s := by
  cases s with
  | nil => rfl
  | cons c cs =>
    simp only [dropBytes]
    have := c.utf8Size_pos
    rw [if_neg]
    omega

theorem takeBytes_append_dropBytes (s : List Char) (n : Nat) :
    takeBytes s n ++ dropBytes s n = s := by
  induction s generalizing n with
  | nil => rfl
  | cons c cs ih =>
    simp only [takeBytes, dropBytes]
    by_cases h : c.utf8Size ≤ n
    · simp [h, ih]
    · simp [h]

theorem takeBytes_utf8Len_append (p q : List Char) :
    takeBytes (p ++ q) (utf8Len p) = p := by
  induction p with
  | nil => simp
  | cons c cs ih =>
    rw [List.cons_append, utf8Len_cons, takeBytes, if_pos (Nat.le_add_right _ _),
      Nat.add_sub_cancel_left, ih]

theorem dropBytes_utf8Len_append (p q : List Char) :
    dropBytes (p ++ q) (utf8Len p) = q := by
  induction p with
  | nil => simp
  | cons c cs ih =>
    rw [List.cons_append, utf8Len_cons, dropBytes, if_pos (Nat.le_add_right _ _),
      Nat.add_sub_cancel_left, ih]

theorem isBoundary_iff_append (s : List Char) (i : Nat) :
    IsBoundary s i ↔ ∃ p q, s = p ++ q ∧ i = utf8Len p := by
  constructor
  · rintro ⟨k, _, rfl⟩
    exact ⟨s.take k, s.drop k, (s.take_append_drop k).symm, rfl⟩
  · rintro ⟨p, q, rfl, rfl⟩
    exact ⟨p.length, by simp, by rw [List.take_left]⟩

theorem isBoundary_zero (s : List Char) : IsBoundary s 0 :=
  ⟨0, Nat.zero_le _, rfl⟩

theorem isBoundary_utf8Len (s : List Char) : IsBoundary s (utf8Len s) :=
  ⟨s.length, Nat.le_refl _, by rw [List.take_length]⟩

theorem IsBoundary.le {s : List Char} {i : Nat} (h : IsBoundary s i) :
    i ≤ utf8Len s := by
  rw [isBoundary_iff_append] at h
  obtain ⟨p, q, rfl, rfl⟩ := h
  rw [utf8Len_append]
  exact Nat.le_add_right _ _

theorem takeBytes_of_isBoundary {s : List Char} {i : Nat} (h : IsBoundary s i) :
    utf8Len (takeBytes s i) = i ∧ s = takeBytes s i ++ dropBytes s i := by
  rw [isBoundary_iff_append] at h
  obtain ⟨p, q, rfl, rfl⟩ := h
  rw [takeBytes_utf8Len_append, dropBytes_utf8Len_append]
  exact ⟨rfl, rfl⟩

/-- The key preservation shape: a cursor placed at boundary `a` of `s` is a
boundary of any string that starts with the bytes of `s` before `a`. -/
theorem isBoundary_takeBytes_append {s : List Char} {a : Nat}
    (h : IsBoundary s a) (z : List Char) :
    IsBoundary (takeBytes s a ++ z) a := by
  rw [isBoundary_iff_append]
  exact ⟨takeBytes s a, z, rfl, ((takeBytes_of_isBoundary h).1).symm⟩

theorem Buffer.valid_of_B2 {b : Buffer} (h : b.B2) : b.Valid := ⟨h.le, h⟩

/-! ## The concrete segmentation model -/

theorem validSeg_splitRuns : ValidSeg splitRuns := by
  intro s
  induction s with
  | nil => exact ⟨rfl, by intro w hw; cases hw⟩
  | cons c cs ih =>
    obtain ⟨hjoin, hne⟩ := ih
    match h : splitRuns cs with
    | [] =>
      have hcs : cs = [] := by rw [h] at hjoin; simpa using hjoin.symm
      refine ⟨?_, ?_⟩
      · show (splitRuns (c :: cs)).flatten = c :: cs
        rw [splitRuns, h]
        simp [hcs]
      · intro v hv
        rw [splitRuns, h] at hv
        simp only [List.mem_singleton] at hv
        simp [hv]
    | [] :: ws => exact absurd rfl (hne [] (h ▸ List.mem_cons_self _ _))
    | (d :: u) :: ws =>
      rw [h] at hjoin hne
      refine ⟨?_, ?_⟩
      · show (splitRuns (c :: cs)).flatten = c :: cs
        rw [splitRuns, h]
        by_cases hr : sameRun c d = true
        · simp only [hr, if_true, List.flatten_cons]
          simp only [List.flatten_cons] at hjoin
          simp [hjoin]
        · simp only [hr, if_false, List.flatten_cons]
          simp only [List.flatten_cons] at hjoin
          simp [hjoin]
      · intro v hv₀
        rw [splitRuns, h] at hv₀
        have hv : v ∈ if sameRun c d then (c :: d :: u) :: ws
            else [c] :: (d :: u) :: ws := hv₀
        by_cases hr : sameRun c d = true
        · rw [if_pos hr] at hv
          rcases List.mem_cons.mp hv with rfl | hv
          · simp
          · exact hne v (List.mem_cons_of_mem _ hv)
        · rw [if_neg hr] at hv
          rcases List.mem_cons.mp hv with rfl | hv
          · simp
          · exact hne v hv

/-! ## Properties of the navigation primitives -/

theorem withOffsets_mem {ws : List (List Char)} {n : Nat} {p : Nat × List Char}
    (h : p ∈ withOffsets n ws) :
    ∃ pre suf, ws = pre ++ p.2 :: suf ∧ p.1 = n + utf8Len pre.flatten := by
  induction ws generalizing n with
  | nil => cases h
  | cons w ws ih =>
    rw [withOffsets] at h
    rcases List.mem_cons.mp h with h | h
    · subst h
      exact ⟨[], ws, rfl, by simp⟩
    · obtain ⟨pre, suf, hws, hn⟩ := ih h
      refine ⟨w :: pre, suf, by rw [List.cons_append, hws], ?_⟩
      rw [hn, List.flatten_cons, utf8Len_append]
      omega

theorem withOffsets_ge {ws : List (List Char)} {n : Nat} {p : Nat × List Char}
    (h : p ∈ withOffsets n ws) : n ≤ p.1 := by
  obtain ⟨pre, suf, _, hn⟩ := withOffsets_mem h
  omega

theorem withOffsets_pairwise (n : Nat) (ws : List (List Char)) :
    (withOffsets n ws).Pairwise (fun a b => a.1 ≤ b.1) := by
  induction ws generalizing n with
  | nil => exact List.Pairwise.nil
  | cons w ws ih =>
    rw [withOffsets]
    refine List.Pairwise.cons (fun q hq => ?_) (ih _)
    have := withOffsets_ge hq
    omega

/-- The first element found in a `Pairwise`-ordered list is related to every
other element satisfying the predicate. -/
theorem find?_pairwise {α : Type} {R : α → α → Prop} {l : List α} {P : α → Bool}
    {p : α} (hs : l.Pairwise R) (h : l.find? P = some p) :
    ∀ q ∈ l, P q = true → p = q ∨ R p q := by
  induction l with
  | nil => cases h
  | cons a l ih =>
    rcases List.pairwise_cons.mp hs with ⟨ha, hl⟩
    by_cases hPa : P a = true
    · rw [List.find?_cons_of_pos _ hPa] at h
      cases h
      intro q hq _
      rcases List.mem_cons.mp hq with rfl | hq
      · exact Or.inl rfl
      · exact Or.inr (ha q hq)
    · rw [List.find?_cons_of_neg _ hPa] at h
      intro q hq hPq
      rcases List.mem_cons.mp hq with rfl | hq
      · exact absurd hPq hPa
      · exact ih hl h q hq hPq

/-- A found segment-start is a boundary; so is the segment's end. -/
theorem seg_boundary {seg : List Char → List (List Char)} (hseg : ValidSeg seg)
    {s : List Char} {p : Nat × List Char} (hp : p ∈ withOffsets 0 (seg s)) :
    IsBoundary s p.1 ∧ IsBoundary s (p.1 + utf8Len p.2) := by
  obtain ⟨pre, suf, hws, hn⟩ := withOffsets_mem hp
  have hflat : s = pre.flatten ++ (p.2 ++ suf.flatten) := by
    have h := (hseg s).1
    rw [hws] at h
    rw [← h, List.flatten_append, List.flatten_cons]
  constructor
  · rw [isBoundary_iff_append]
    exact ⟨pre.flatten, p.2 ++ suf.flatten, hflat, by omega⟩
  · rw [isBoundary_iff_append]
    refine ⟨pre.flatten ++ p.2, suf.flatten, by rw [hflat, List.append_assoc], ?_⟩
    rw [utf8Len_append]
    omega

theorem next_word_ge {seg : List Char → List (List Char)} {pivot : Nat}
    {s : List Char} (h : pivot ≤ utf8Len s) : pivot ≤ next_word seg pivot s := by
  unfold next_word
  split
  · exact Nat.le_refl _
  · split
    · next p hp =>
      have := List.find?_some hp
      simp only [Bool.and_eq_true, decide_eq_true_eq] at this
      omega
    · exact h

theorem next_word_boundary {seg : List Char → List (List Char)}
    (hseg : ValidSeg seg) {pivot : Nat} {s : List Char}
    (hb : IsBoundary s pivot) : IsBoundary s (next_word seg pivot s) := by
  unfold next_word
  split
  · exact hb
  · split
    · next p hp =>
      exact (seg_boundary hseg (List.mem_reverse.mp
        (by exact List.mem_reverse.mpr (List.mem_of_find?_eq_some hp)))).1
    · exact isBoundary_utf8Len s

theorem previous_word_le {seg : List Char → List (List Char)} {pivot : Nat}
    {s : List Char} : previous_word seg pivot s ≤ pivot := by
  unfold previous_word
  split
  · exact Nat.le_refl _
  · split
    · next p hp =>
      have := List.find?_some hp
      simp only [Bool.and_eq_true, decide_eq_true_eq] at this
      omega
    · exact Nat.zero_le _

theorem previous_word_boundary {seg : List Char → List (List Char)}
    (hseg : ValidSeg seg) {pivot : Nat} {s : List Char} :
    IsBoundary s (previous_word seg pivot s) := by
  unfold previous_word
  split
  · next h => rw [h]; exact isBoundary_zero s
  · split
    · next p hp =>
      exact (seg_boundary hseg (List.mem_reverse.mp
        (List.mem_of_find?_eq_some hp))).1
    · exact isBoundary_zero s

theorem previous_word_end_le {seg : List Char → List (List Char)} {pivot : Nat}
    {s : List Char} : previous_word_end seg pivot s ≤ pivot := by
  unfold previous_word_end
  split
  · exact Nat.le_refl _
  · split
    · next p hp =>
      have := List.find?_some hp
      simp only [Bool.and_eq_true, decide_eq_true_eq] at this
      omega
    · exact Nat.zero_le _

theorem previous_word_end_boundary {seg : List Char → List (List Char)}
    (hseg : ValidSeg seg) {pivot : Nat} {s : List Char} :
    IsBoundary s (previous_word_end seg pivot s) := by
  unfold previous_word_end
  split
  · next h => rw [h]; exact isBoundary_zero s
  · split
    · next p hp =>
      exact (seg_boundary hseg (List.mem_reverse.mp
        (List.mem_of_find?_eq_some hp))).2
    · exact isBoundary_zero s

theorem next_scalar_value_boundary {s : List Char} {i : Nat}
    (hb : IsBoundary s i) : IsBoundary s (next_scalar_value i s) := by
  rw [isBoundary_iff_append] at hb
  obtain ⟨p, q, rfl, rfl⟩ := hb
  unfold next_scalar_value
  rw [dropBytes_utf8Len_append]
  match q with
  | [] => exact isBoundary_utf8Len _
  | [c] => exact isBoundary_utf8Len _
  | c0 :: c1 :: rest =>
    rw [isBoundary_iff_append]
    exact ⟨p ++ [c0], c1 :: rest, by simp, by simp [utf8Len_append]⟩

theorem getLast?_decomp {p : List Char} {c : Char} (h : p.getLast? = some c) :
    p = p.dropLast ++ [c] ∧ utf8Len p = utf8Len p.dropLast + c.utf8Size := by
  have hne : p ≠ [] := by
    intro hp
    rw [hp] at h
    cases h
  have hc : c = p.getLast hne := by
    have := List.getLast?_eq_getLast p hne
    rw [h] at this
    exact (Option.some_inj.mp this)
  subst hc
  refine ⟨(List.dropLast_append_getLast hne).symm, ?_⟩
  conv_lhs => rw [(List.dropLast_append_getLast hne).symm]
  rw [utf8Len_append]
  simp

theorem charIndicesNextBack_append (p q : List Char) :
    charIndicesNextBack (p ++ q) (utf8Len p) =
      p.getLast?.map fun c => (utf8Len p - c.utf8Size, c) := by
  unfold charIndicesNextBack
  rw [takeBytes_utf8Len_append]
  cases p.getLast? <;> rfl

theorem previous_scalar_value_boundary {s : List Char} {i : Nat}
    (hb : IsBoundary s i) : IsBoundary s (previous_scalar_value i s) := by
  rw [isBoundary_iff_append] at hb
  obtain ⟨p, q, rfl, rfl⟩ := hb
  unfold previous_scalar_value
  rw [charIndicesNextBack_append]
  cases hp : p.getLast? with
  | none => exact isBoundary_zero _
  | some c =>
    obtain ⟨hdec, hlen⟩ := getLast?_decomp hp
    show IsBoundary (p ++ q) (utf8Len p - c.utf8Size)
    rw [isBoundary_iff_append]
    refine ⟨p.dropLast, c :: q, ?_, by omega⟩
    conv_lhs => rw [hdec]
    simp

/-- Advancing a boundary past the char that starts there stays a boundary. -/
theorem isBoundary_head_adjust {s : List Char} {a : Nat} (ha : IsBoundary s a)
    {c : Char} (hc : (dropBytes s a).head? = some c) :
    IsBoundary s (a + c.utf8Size) := by
  rw [isBoundary_iff_append] at ha
  obtain ⟨p, q, rfl, rfl⟩ := ha
  rw [dropBytes_utf8Len_append] at hc
  match q, hc with
  | c :: rest, rfl =>
    rw [isBoundary_iff_append]
    exact ⟨p ++ [c], rest, by simp, by simp [utf8Len_append]⟩

/-! ## Preservation of B1 and B2 by the buffer operations -/

theorem write_valid {b : Buffer} (hb : b.Valid) (c : Char) : (b.write c).Valid := by
  apply Buffer.valid_of_B2
  obtain ⟨s, i⟩ := b
  obtain ⟨p, q, rfl, rfl⟩ := (isBoundary_iff_append _ _).mp hb.2
  show IsBoundary
    (takeBytes (p ++ q) (utf8Len p) ++ c :: dropBytes (p ++ q) (utf8Len p))
    (utf8Len p + c.utf8Size)
  rw [takeBytes_utf8Len_append, dropBytes_utf8Len_append, isBoundary_iff_append]
  exact ⟨p ++ [c], q, by simp, by simp [utf8Len_append]⟩

theorem write_str_valid {b : Buffer} (hb : b.Valid) (t : List Char) :
    (b.write_str t).Valid := by
  apply Buffer.valid_of_B2
  obtain ⟨s, i⟩ := b
  obtain ⟨p, q, rfl, rfl⟩ := (isBoundary_iff_append _ _).mp hb.2
  show IsBoundary
    (takeBytes (p ++ q) (utf8Len p) ++ t ++ dropBytes (p ++ q) (utf8Len p))
    (utf8Len p + utf8Len t)
  rw [takeBytes_utf8Len_append, dropBytes_utf8Len_append, isBoundary_iff_append]
  exact ⟨p ++ t, q, by simp, by simp [utf8Len_append]⟩

theorem move_cursor_valid {seg : List Char → List (List Char)}
    (hseg : ValidSeg seg) {b : Buffer} (hb : b.Valid) (r : Range)
    (d : Direction) : (b.move_cursor seg r d).Valid := by
  apply Buffer.valid_of_B2
  cases r with
  | Single =>
    cases d with
    | Backward => exact previous_scalar_value_boundary hb.2
    | Forward => exact next_scalar_value_boundary hb.2
  | Word =>
    cases d with
    | Backward => exact previous_word_boundary hseg
    | Forward => exact next_word_boundary hseg hb.2
  | Line =>
    cases d with
    | Backward => exact isBoundary_zero _
    | Forward =>
      show Buffer.B2 (if b.cursor < utf8Len b.string then b.go_to_end else b)
      split
      · exact isBoundary_utf8Len _
      · exact hb.2

theorem wwAdjustEnd_fst (s : List Char) (start stop : Nat) :
    (wwAdjustEnd s start stop).1 = start := by
  unfold wwAdjustEnd
  split
  · split <;> rfl
  · rfl

theorem wwAdjust_fst_boundary {s : List Char} {start : Nat} (stop : Nat)
    (hstart : IsBoundary s start) : IsBoundary s (wwAdjust s start stop).1 := by
  unfold wwAdjust
  split
  · split
    · next c hc =>
      split
      · exact isBoundary_head_adjust hstart hc
      · rw [wwAdjustEnd_fst]
        exact hstart
    · rw [wwAdjustEnd_fst]
      exact hstart
  · exact hstart

theorem wholeWordSpan_fst_boundary {seg : List Char → List (List Char)}
    (hseg : ValidSeg seg) (s : List Char) (i : Nat) :
    IsBoundary s (wholeWordSpan seg s i).1 :=
  wwAdjust_fst_boundary _ (previous_word_end_boundary hseg)

theorem delete_valid {seg : List Char → List (List Char)} (hseg : ValidSeg seg)
    {b : Buffer} (hb : b.Valid) (scope : Scope) : (b.delete seg scope).Valid := by
  apply Buffer.valid_of_B2
  obtain ⟨s, i⟩ := b
  have hb2 : IsBoundary s i := hb.2
  cases scope with
  | WholeLine => exact isBoundary_zero _
  | WholeWord =>
    show IsBoundary
      (drainBytes s (wholeWordSpan seg s i).1 (wholeWordSpan seg s i).2)
      (wholeWordSpan seg s i).1
    exact isBoundary_takeBytes_append (wholeWordSpan_fst_boundary hseg s i) _
  | Relative r d =>
    cases r with
    | Line =>
      cases d with
      | Backward => exact isBoundary_zero _
      | Forward => exact isBoundary_takeBytes_append hb2 _
    | Word =>
      cases d with
      | Backward =>
        exact isBoundary_takeBytes_append (previous_word_boundary hseg) _
      | Forward => exact isBoundary_takeBytes_append hb2 _
    | Single =>
      cases d with
      | Forward =>
        show Buffer.B2 (if i < utf8Len s then ⟨removeAt s i, i⟩ else ⟨s, i⟩)
        split
        · exact isBoundary_takeBytes_append hb2 _
        · exact hb2
      | Backward =>
        show Buffer.B2 (if i > 0 then
          match charIndicesNextBack s i with
          | some (index, _) => ⟨removeAt s index, index⟩
          | none => ⟨s, i⟩
          else ⟨s, i⟩)
        split
        · obtain ⟨p, q, rfl, rfl⟩ := (isBoundary_iff_append _ _).mp hb2
          rw [charIndicesNextBack_append]
          cases hp : p.getLast? with
          | none => exact hb2
          | some c =>
            obtain ⟨hdec, hlen⟩ := getLast?_decomp hp
            show IsBoundary (removeAt (p ++ q) (utf8Len p - c.utf8Size))
              (utf8Len p - c.utf8Size)
            have hidx : utf8Len p - c.utf8Size = utf8Len p.dropLast := by omega
            have hpq : p ++ q = p.dropLast ++ (c :: q) := by
              conv_lhs => rw [hdec]
              rw [List.append_assoc]
              rfl
            rw [hidx, hpq]
            unfold removeAt
            rw [takeBytes_utf8Len_append, dropBytes_utf8Len_append]
            exact (isBoundary_iff_append _ _).mpr ⟨p.dropLast, q, rfl, rfl⟩
        · exact hb2

theorem applyOp_valid {seg : List Char → List (List Char)} (hseg : ValidSeg seg)
    {b : Buffer} (hb : b.Valid) (op : Op) : (applyOp seg b op).Valid := by
  cases op with
  | write c => exact write_valid hb c
  | write_str t => exact write_str_valid hb t
  | delete scope => exact delete_valid hseg hb scope
  | move_cursor r d => exact move_cursor_valid hseg hb r d

theorem foldl_applyOp_valid {seg : List Char → List (List Char)}
    (hseg : ValidSeg seg) {b : Buffer} (hb : b.Valid) (l : List Op) :
    (l.foldl (applyOp seg) b).Valid := by
  induction l generalizing b with
  | nil => exact hb
  | cons op l ih => exact ih (applyOp_valid hseg hb op)

/-- C1: for every Buffer (text, cursor) satisfying B1 and B2, and every
finite sequence of `write`, `write_str`, `delete` (any `Scope`) and
`move_cursor` (any `Range` and `Direction`) operations with arbitrary
Unicode arguments, after each step (each prefix of the sequence) the
invariants B1 (`cursor ≤ len(text)`) and B2 (the cursor sits on a scalar
boundary) still hold; stated for every genuine word segmentation. -/
theorem c1_buffer_invariants {seg : List Char → List (List Char)}
    (hseg : ValidSeg seg) (b : Buffer) (hb : b.B1 ∧ b.B2) (ops : List Op)
    (n : Nat) :
    ((ops.take n).foldl (applyOp seg) b).B1 ∧
      ((ops.take n).foldl (applyOp seg) b).B2 :=
  foldl_applyOp_valid hseg hb (ops.take n)

/-- Witness for C1 at a concrete buffer and operation sequence. -/
theorem c1_witness :
    ((([Op.write 'é', Op.delete .WholeWord,
        Op.move_cursor .Word .Backward]).take 3).foldl (applyOp splitRuns)
      ⟨['a', 'b', ' ', 'c', 'd'], 4⟩).B1 ∧
    ((([Op.write 'é', Op.delete .WholeWord,
        Op.move_cursor .Word .Backward]).take 3).foldl (applyOp splitRuns)
      ⟨['a', 'b', ' ', 'c', 'd'], 4⟩).B2 :=
  c1_buffer_invariants validSeg_splitRuns _ (by decide) _ 3

/-! ## C6: `write_range` with the empty string -/

/-- C6 (code evaluated at the failing input): for `Range::Line` and
`Range::Word` an empty `write_range` is indeed a no-op, but for
`Range::Single` the code reaches `"".chars().next().unwrap()` and panics
(modelled as `none`) instead of being a no-op as the claim states. -/
theorem c6_write_range_empty_evaluation :
    Buffer.write_range splitRuns ⟨['a', 'b'], 2⟩ [] .Line =
        some ⟨['a', 'b'], 2⟩ ∧
    Buffer.write_range splitRuns ⟨['a', 'b'], 2⟩ [] .Word =
        some ⟨['a', 'b'], 2⟩ ∧
    Buffer.write_range splitRuns ⟨['a', 'b'], 2⟩ [] .Single = none := by
  refine ⟨by decide, by decide, rfl⟩

/-! ## C3: `delete(WholeWord)` -/

theorem headNotWs_head? {l : List Char} {c : Char} (h : headNotWs l = true)
    (hc : l.head? = some c) : c.isWhitespace = false := by
  cases l with
  | nil => cases hc
  | cons x xs =>
    cases hc
    unfold headNotWs at h
    simpa using h

/-- C3 (counterexample): on the buffer `"ab cd"` with the cursor at byte 4
(between `c` and `d`), `delete(WholeWord)` yields `"ab "` with cursor 3 —
not `"ab d"` as the claim (and spec §8 scenario 3) states: `next_word(4)`
is 5 (the end of the string), so the whole word `"cd"` is removed and the
space before it is the whitespace that is preserved. -/
theorem c3_counterexample :
    Buffer.delete splitRuns ⟨['a', 'b', ' ', 'c', 'd'], 4⟩ .WholeWord =
        ⟨['a', 'b', ' '], 3⟩ ∧
    (['a', 'b', ' '] : List Char) ≠ ['a', 'b', ' ', 'd'] := by
  refine ⟨by decide, by decide⟩

/-- C3 (amended): `delete(WholeWord)` removes the byte span from
`start = prev_word_end(cursor)` to `stop = next_word(cursor)` and puts the
cursor at the left edge of the removed span; when `start > 0` (not when
`cursor ≠ 0`) exactly one whitespace at the edge of the span is kept — the
one the span begins with if present, otherwise the one it ends with if
present.  (For the buffer `"ab cd"` with cursor 4 this gives `"ab "` with
cursor 3.) -/
theorem c3_amended (seg : List Char → List (List Char)) (b : Buffer) :
    (previous_word_end seg b.cursor b.string = 0 →
      b.delete seg .WholeWord =
        ⟨drainBytes b.string 0 (next_word seg b.cursor b.string), 0⟩) ∧
    (∀ c rest, 0 < previous_word_end seg b.cursor b.string →
      dropBytes b.string (previous_word_end seg b.cursor b.string) = c :: rest →
      c.isWhitespace = true →
      b.delete seg .WholeWord =
        ⟨drainBytes b.string (previous_word_end seg b.cursor b.string + c.utf8Size)
            (next_word seg b.cursor b.string),
          previous_word_end seg b.cursor b.string + c.utf8Size⟩) ∧
    (∀ c, 0 < previous_word_end seg b.cursor b.string →
      headNotWs (dropBytes b.string (previous_word_end seg b.cursor b.string)) = true →
      (takeBytes b.string (next_word seg b.cursor b.string)).getLast? = some c →
      c.isWhitespace = true →
      b.delete seg .WholeWord =
        ⟨drainBytes b.string (previous_word_end seg b.cursor b.string)
            (next_word seg b.cursor b.string - c.utf8Size),
          previous_word_end seg b.cursor b.string⟩) ∧
    (0 < previous_word_end seg b.cursor b.string →
      headNotWs (dropBytes b.string (previous_word_end seg b.cursor b.string)) = true →
      ((takeBytes b.string (next_word seg b.cursor b.string)).getLast?.all
          fun c => !c.isWhitespace) = true →
      b.delete seg .WholeWord =
        ⟨drainBytes b.string (previous_word_end seg b.cursor b.string)
            (next_word seg b.cursor b.string),
          previous_word_end seg b.cursor b.string⟩) := by
  obtain ⟨s, i⟩ := b
  have hdel : ∀ X Y, wholeWordSpan seg s i = (X, Y) →
      Buffer.delete seg ⟨s, i⟩ .WholeWord = ⟨drainBytes s X Y, X⟩ := by
    intro X Y hXY
    show (⟨drainBytes s (wholeWordSpan seg s i).1 (wholeWordSpan seg s i).2,
      (wholeWordSpan seg s i).1⟩ : Buffer) = _
    rw [hXY]
  refine ⟨?_, ?_, ?_, ?_⟩
  · intro h0
    exact hdel _ _ (by simp [wholeWordSpan, wwAdjust, h0])
  · intro c rest hpos hdrop hws
    exact hdel _ _ (by simp [wholeWordSpan, wwAdjust, hpos, hdrop, hws])
  · intro c hpos hhead hlast hws
    refine hdel _ _ ?_
    cases hdrop : (dropBytes s (previous_word_end seg i s)).head? with
    | none => simp [wholeWordSpan, wwAdjust, wwAdjustEnd, hpos, hdrop, hlast, hws]
    | some c₀ =>
      have hc₀ : c₀.isWhitespace = false := headNotWs_head? hhead hdrop
      simp [wholeWordSpan, wwAdjust, wwAdjustEnd, hpos, hdrop, hc₀, hlast, hws]
  · intro hpos hhead hlast
    refine hdel _ _ ?_
    have hend : wwAdjustEnd s (previous_word_end seg i s) (next_word seg i s) =
        (previous_word_end seg i s, next_word seg i s) := by
      cases hl : (takeBytes s (next_word seg i s)).getLast? with
      | none => simp [wwAdjustEnd, hl]
      | some c =>
        rw [hl] at hlast
        simp only [Option.all_some, Bool.not_eq_true'] at hlast
        simp [wwAdjustEnd, hl, hlast]
    cases hdrop : (dropBytes s (previous_word_end seg i s)).head? with
    | none => simp [wholeWordSpan, wwAdjust, hpos, hdrop, hend]
    | some c₀ =>
      have hc₀ : c₀.isWhitespace = false := headNotWs_head? hhead hdrop
      simp [wholeWordSpan, wwAdjust, hpos, hdrop, hc₀, hend]

/-- Witness for C3's amended statement at the concrete corrected example:
the span-begins-with-whitespace case applied to `"ab cd"` with cursor 4. -/
theorem c3_witness :
    Buffer.delete splitRuns ⟨['a', 'b', ' ', 'c', 'd'], 4⟩ .WholeWord =
      ⟨['a', 'b', ' '], 3⟩ :=
  (c3_amended splitRuns ⟨['a', 'b', ' ', 'c', 'd'], 4⟩).2.1 ' ' ['c', 'd']
    (by decide) (by decide) (by decide)

/-! ## C9: the word-navigation algebra -/

theorem utf8Len_pos {w : List Char} (h : w ≠ []) : 0 < utf8Len w := by
  cases w with
  | nil => exact absurd rfl h
  | cons c cs =>
    have := c.utf8Size_pos
    rw [utf8Len_cons]
    omega

theorem withOffsets_snd_mem {ws : List (List Char)} {n : Nat}
    {p : Nat × List Char} (h : p ∈ withOffsets n ws) : p.2 ∈ ws := by
  obtain ⟨pre, suf, hws, _⟩ := withOffsets_mem h
  rw [hws]
  exact List.mem_append_right _ (List.mem_cons_self _ _)

/-- A segment start is strictly below the total byte length. -/
theorem withOffsets_fst_lt {seg : List Char → List (List Char)}
    (hseg : ValidSeg seg) {s : List Char} {q : Nat × List Char}
    (hq : q ∈ withOffsets 0 (seg s)) : q.1 < utf8Len s := by
  have hb := (seg_boundary hseg hq).2.le
  have hne := (hseg s).2 q.2 (withOffsets_snd_mem hq)
  have := utf8Len_pos hne
  omega

/-- Function `next_word` is the smallest word-bound segment start strictly after
`pivot` whose segment does not begin with whitespace, clamped to the byte
length when no such start exists. -/
theorem next_word_min {seg : List Char → List (List Char)}
    (hseg : ValidSeg seg) {i : Nat} {s : List Char} :
    (∃ p ∈ withOffsets 0 (seg s), next_word seg i s = p.1 ∧ i < p.1 ∧
      headNotWs p.2 = true ∧
      ∀ q ∈ withOffsets 0 (seg s), i < q.1 → headNotWs q.2 = true →
        next_word seg i s ≤ q.1) ∨
    (next_word seg i s = utf8Len s ∧
      ∀ q ∈ withOffsets 0 (seg s), ¬(i < q.1 ∧ headNotWs q.2 = true)) := by
  unfold next_word
  split
  · next hlen =>
    refine Or.inr ⟨hlen, fun q hq h => ?_⟩
    have := withOffsets_fst_lt hseg hq
    omega
  · split
    · next p hp =>
      have hPp := List.find?_some hp
      simp only [Bool.and_eq_true, decide_eq_true_eq] at hPp
      refine Or.inl ⟨p, List.mem_of_find?_eq_some hp, rfl, hPp.1, hPp.2, ?_⟩
      intro q hq hlt hws
      have := find?_pairwise (withOffsets_pairwise 0 (seg s)) hp q hq
        (by simp [hlt, hws])
      rcases this with rfl | hle
      · exact Nat.le_refl _
      · exact hle
    · next hnone =>
      refine Or.inr ⟨rfl, fun q hq h => ?_⟩
      have := List.find?_eq_none.mp hnone q hq
      simp only [Bool.and_eq_true, decide_eq_true_eq, not_and] at this
      exact this h.1 h.2

/-- Function `previous_word` is the greatest word-bound segment start strictly before
`pivot` whose segment does not begin with whitespace, clamped to 0. -/
theorem previous_word_max {seg : List Char → List (List Char)}
    {i : Nat} {s : List Char} :
    (∃ p ∈ withOffsets 0 (seg s), previous_word seg i s = p.1 ∧ p.1 < i ∧
      headNotWs p.2 = true ∧
      ∀ q ∈ withOffsets 0 (seg s), q.1 < i → headNotWs q.2 = true →
        q.1 ≤ previous_word seg i s) ∨
    (previous_word seg i s = 0 ∧
      ∀ q ∈ withOffsets 0 (seg s), ¬(q.1 < i ∧ headNotWs q.2 = true)) := by
  unfold previous_word
  split
  · next h0 =>
    refine Or.inr ⟨h0, fun q hq h => ?_⟩
    omega
  · split
    · next p hp =>
      have hPp := List.find?_some hp
      simp only [Bool.and_eq_true, decide_eq_true_eq] at hPp
      refine Or.inl ⟨p, List.mem_reverse.mp (List.mem_of_find?_eq_some hp), rfl,
        hPp.1, hPp.2, ?_⟩
      intro q hq hlt hws
      have hrev : ((withOffsets 0 (seg s)).reverse).Pairwise
          (fun a b => b.1 ≤ a.1) :=
        List.pairwise_reverse.mpr (withOffsets_pairwise 0 (seg s))
      have := find?_pairwise hrev hp q (List.mem_reverse.mpr hq)
        (by simp [hlt, hws])
      rcases this with rfl | hle
      · exact Nat.le_refl _
      · exact hle
    · next hnone =>
      refine Or.inr ⟨rfl, fun q hq h => ?_⟩
      have := List.find?_eq_none.mp hnone q (List.mem_reverse.mpr hq)
      simp only [Bool.and_eq_true, decide_eq_true_eq, not_and] at this
      exact this h.1 h.2

/-- Jumping back a word and forward again never lands before the start. -/
theorem next_word_previous_word_ge {seg : List Char → List (List Char)}
    (hseg : ValidSeg seg) {i : Nat} {s : List Char} (hi : i ≤ utf8Len s) :
    i ≤ next_word seg (previous_word seg i s) s := by
  rcases next_word_min hseg with ⟨p, hp, heq, hlt, hws, _⟩ | ⟨heq, _⟩
  · rw [heq]
    by_contra hcon
    push_neg at hcon
    rcases @previous_word_max seg i s with
      ⟨pm, _, heqm, _, _, hmax⟩ | ⟨_, hnocand⟩
    · have := hmax p hp (by omega) hws
      omega
    · exact hnocand p hp ⟨by omega, hws⟩
  · omega

/-- C9: for every string and every scalar boundary `i`, `next_word(i, s)` is
the smallest word-bound boundary strictly greater than `i` whose segment
does not begin with whitespace (clamped to `len(s)`), `prev_word(i, s)` the
greatest such boundary strictly less than `i` (clamped to 0); both results
are scalar boundaries of `s`, and `next_word(prev_word(i, s), s) ≥ i`;
stated for every genuine word segmentation. -/
theorem c9_navigation {seg : List Char → List (List Char)}
    (hseg : ValidSeg seg) (s : List Char) (i : Nat) (hi : IsBoundary s i) :
    ((∃ p ∈ withOffsets 0 (seg s), next_word seg i s = p.1 ∧ i < p.1 ∧
        headNotWs p.2 = true ∧
        ∀ q ∈ withOffsets 0 (seg s), i < q.1 → headNotWs q.2 = true →
          next_word seg i s ≤ q.1) ∨
      (next_word seg i s = utf8Len s ∧
        ∀ q ∈ withOffsets 0 (seg s), ¬(i < q.1 ∧ headNotWs q.2 = true))) ∧
    ((∃ p ∈ withOffsets 0 (seg s), previous_word seg i s = p.1 ∧ p.1 < i ∧
        headNotWs p.2 = true ∧
        ∀ q ∈ withOffsets 0 (seg s), q.1 < i → headNotWs q.2 = true →
          q.1 ≤ previous_word seg i s) ∨
      (previous_word seg i s = 0 ∧
        ∀ q ∈ withOffsets 0 (seg s), ¬(q.1 < i ∧ headNotWs q.2 = true))) ∧
    IsBoundary s (next_word seg i s) ∧
    IsBoundary s (previous_word seg i s) ∧
    i ≤ next_word seg (previous_word seg i s) s :=
  ⟨next_word_min hseg, previous_word_max,
    next_word_boundary hseg hi, previous_word_boundary hseg,
    next_word_previous_word_ge hseg hi.le⟩

/-- Witness for C9 on `"a b"` at boundary 1 (projections of the
characterization at a concrete input). -/
theorem c9_witness :
    IsBoundary ['a', ' ', 'b'] (next_word splitRuns 1 ['a', ' ', 'b']) ∧
    IsBoundary ['a', ' ', 'b'] (previous_word splitRuns 1 ['a', ' ', 'b']) ∧
    1 ≤ next_word splitRuns (previous_word splitRuns 1 ['a', ' ', 'b'])
      ['a', ' ', 'b'] :=
  ⟨(c9_navigation validSeg_splitRuns ['a', ' ', 'b'] 1 (by decide)).2.2.1,
    (c9_navigation validSeg_splitRuns ['a', ' ', 'b'] 1 (by decide)).2.2.2.1,
    (c9_navigation validSeg_splitRuns ['a', ' ', 'b'] 1 (by decide)).2.2.2.2⟩

/-! ## C4: the default key-to-action mapping -/

/-- C4 (counterexample): with no override, `Char('x')` with both `Ctrl` and
`Alt` held resolves to `Write 'x'` (the code tests the modifier set for
equality with exactly `CONTROL` / exactly `ALT`), while the claimed table's
"anything else → NoOp" row demands `NoOp`. -/
theorem c4_counterexample :
    action_for none ⟨.Char 'x', ⟨false, true, true⟩⟩ ⟨[], 0⟩ = .Write 'x' ∧
    claimed_table_action ⟨.Char 'x', ⟨false, true, true⟩⟩ ⟨[], 0⟩ = .NoOp ∧
    Action.Write 'x' ≠ Action.NoOp := by decide

/-- C4 (amended): with no override installed, action resolution equals the
§4.3 table for every event, with the final rows read as the code has them: a
character key resolves to `Write c` under every modifier set other than
exactly `Ctrl` and exactly `Alt`; `NoOp` arises only for unlisted key codes
and for exact-`Ctrl`/exact-`Alt` characters outside the tables. -/
theorem c4_amended (e : Event) (b : Buffer) :
    action_for none e b = amended_table_action e b := by
  obtain ⟨code, sh, ct, al⟩ := e
  cases code with
  | Char c =>
    cases sh <;> cases ct <;> cases al <;> first | rfl | skip
    -- the two surviving goals: modifiers exactly `Alt`, then exactly `Ctrl`
    · by_cases h1 : c = 'b'
      · subst h1; rfl
      by_cases h2 : c = 'f'
      · subst h2; rfl
      simp [action_for, default_action, amended_table_action, control_pressed,
        alt_pressed, Modifiers.CONTROL, Modifiers.ALT, h1, h2]
    · by_cases h1 : c = 'm'
      · subst h1; rfl
      by_cases h2 : c = 'd'
      · subst h2; rfl
      by_cases h3 : c = 'c'
      · subst h3; rfl
      by_cases h4 : c = 'b'
      · subst h4; rfl
      by_cases h5 : c = 'f'
      · subst h5; rfl
      by_cases h6 : c = 'a'
      · subst h6; rfl
      by_cases h7 : c = 'e'
      · subst h7; rfl
      by_cases h8 : c = 'j'
      · subst h8; rfl
      by_cases h9 : c = 'k'
      · subst h9; rfl
      by_cases h10 : c = 'h'
      · subst h10; rfl
      by_cases h11 : c = 'l'
      · subst h11; rfl
      by_cases h12 : c = 'w'
      · subst h12; rfl
      by_cases h13 : c = 'u'
      · subst h13; rfl
      simp [action_for, default_action, amended_table_action, control_pressed,
        alt_pressed, Modifiers.CONTROL, Modifiers.ALT, h1, h2, h3, h4, h5, h6,
        h7, h8, h9, h10, h11, h12, h13]
  | Enter => cases sh <;> cases ct <;> cases al <;> rfl
  | Esc => cases sh <;> cases ct <;> cases al <;> rfl
  | Tab => cases sh <;> cases ct <;> cases al <;> rfl
  | BackTab => cases sh <;> cases ct <;> cases al <;> rfl
  | Backspace => cases sh <;> cases ct <;> cases al <;> rfl
  | Delete => cases sh <;> cases ct <;> cases al <;> rfl
  | Right => cases sh <;> cases ct <;> cases al <;> rfl
  | Left => cases sh <;> cases ct <;> cases al <;> rfl
  | Home => cases sh <;> cases ct <;> cases al <;> rfl
  | End => cases sh <;> cases ct <;> cases al <;> rfl
  | Up => cases sh <;> cases ct <;> cases al <;> rfl
  | Down => cases sh <;> cases ct <;> cases al <;> rfl
  | PageUp => cases sh <;> cases ct <;> cases al <;> rfl
  | PageDown => cases sh <;> cases ct <;> cases al <;> rfl
  | Insert => cases sh <;> cases ct <;> cases al <;> rfl
  | F n => cases sh <;> cases ct <;> cases al <;> rfl
  | Null => cases sh <;> cases ct <;> cases al <;> rfl

/-! ## Context helper lemmas -/

theorem try_take_suggestion_suggestions (ctx : Ctx) :
    ctx.try_take_suggestion.suggestions = none := by
  unfold Ctx.try_take_suggestion
  cases h : ctx.suggestions with
  | none => exact h
  | some s =>
    show (match s.take with
      | some b => { ctx with suggestions := none, buffer := b }
      | none => ({ ctx with suggestions := none } : Ctx)).suggestions = none
    cases s.take <;> rfl

theorem try_take_of_none {ctx : Ctx} (h : ctx.suggestions = none) :
    ctx.try_take_suggestion = ctx := by
  unfold Ctx.try_take_suggestion
  rw [h]

theorem try_take_of_selected {ctx : Ctx} {s : Suggestions} {k : Nat}
    {bk : Buffer} (hs : ctx.suggestions = some s) (hk : s.index = some k)
    (hopt : s.options.get? k = some bk) :
    ctx.try_take_suggestion = materialize ctx bk := by
  unfold Ctx.try_take_suggestion Suggestions.take materialize
  rw [hs]
  show (match (match s.index with
      | some index => s.options.get? index
      | none => none) with
    | some b => { ctx with suggestions := none, buffer := b }
    | none => ({ ctx with suggestions := none } : Ctx)) =
    { ctx with suggestions := none, buffer := bk }
  rw [hk]
  show (match s.options.get? k with
    | some b => { ctx with suggestions := none, buffer := b }
    | none => ({ ctx with suggestions := none } : Ctx)) =
    { ctx with suggestions := none, buffer := bk }
  rw [hopt]

theorem update_completion_suggestions (H : Hooks) (ctx : Ctx) :
    (ctx.update_completion H).suggestions = ctx.suggestions := by
  unfold Ctx.update_completion
  cases H.completer <;> rfl

theorem write_suggestions_none (H : Hooks) (ctx : Ctx) (c : Char) :
    (ctx.write H c).1.suggestions = none := by
  unfold Ctx.write
  rw [update_completion_suggestions]
  exact try_take_suggestion_suggestions ctx

theorem delete_suggestions_none (H : Hooks)
    (seg : List Char → List (List Char)) (ctx : Ctx) (scope : Scope) :
    (ctx.delete H seg scope).1.suggestions = none := by
  unfold Ctx.delete
  rw [update_completion_suggestions]
  exact try_take_suggestion_suggestions ctx

theorem complete_suggestions {H : Hooks} {ctx ctx' : Ctx} {r : Range} {n : Nat}
    (h : ctx.complete H r = some (ctx', n)) :
    ctx'.suggestions = ctx.suggestions := by
  obtain ⟨b, comp, sugg⟩ := ctx
  unfold Ctx.complete at h
  cases comp with
  | none =>
    cases h
    rfl
  | some t =>
    cases r with
    | Line =>
      cases h
      rw [update_completion_suggestions]
    | Word =>
      cases h
      rw [update_completion_suggestions]
    | Single =>
      cases t with
      | nil => cases h
      | cons c cs =>
        cases h
        rw [update_completion_suggestions]

theorem suggest_buffer (H : Hooks) (ctx : Ctx) (d : Direction) :
    (ctx.suggest H d).1.buffer = ctx.buffer := by
  unfold Ctx.suggest
  cases H.suggester with
  | none => rfl
  | some f =>
    cases ctx.suggestions with
    | some s =>
      show (match (s.cycle d).index with
        | some _ => ({ ctx with suggestions := some (s.cycle d) }, 1)
        | none =>
          ({ ctx with suggestions := some (s.cycle d) }, 1)).1.buffer = ctx.buffer
      cases (s.cycle d).index <;> rfl
    | none =>
      show (if (f ctx.buffer).isEmpty then (ctx, 1)
        else ({ ctx with
          suggestions := some (Suggestions.new (f ctx.buffer) d) }, 1)).1.buffer =
        ctx.buffer
      by_cases h : (f ctx.buffer).isEmpty
      · rw [if_pos h]
      · rw [if_neg h]

/-! ## C5: opening and cycling the suggestion overlay -/

/-- C5: over a non-empty option list, `Suggest(Forward)` opens on index 0
and `Suggest(Backward)` on index N−1; cycling forward maps `Some k` to
`Some (k+1)` when `k+1 < N` and to `None` when `k+1 = N`, and `None` to
`Some 0`; cycling backward maps `Some 0` to `None`, `Some (k+1)` to
`Some k`, and `None` to `Some (N−1)`. -/
theorem c5_suggestion_cycling (options : List (List Char))
    (hne : options ≠ []) (s : Suggestions) :
    (Suggestions.new options .Forward).index = some 0 ∧
    (Suggestions.new options .Backward).index = some (options.length - 1) ∧
    (s.index = none → (s.cycle .Forward).index = some 0) ∧
    (∀ k, s.index = some k → k + 1 < s.options.length →
      (s.cycle .Forward).index = some (k + 1)) ∧
    (∀ k, s.index = some k → k + 1 = s.options.length →
      (s.cycle .Forward).index = none) ∧
    (s.index = some 0 → (s.cycle .Backward).index = none) ∧
    (∀ k, s.index = some (k + 1) → (s.cycle .Backward).index = some k) ∧
    (s.index = none →
      (s.cycle .Backward).index = some (s.options.length - 1)) := by
  refine ⟨rfl, rfl, ?_, ?_, ?_, ?_, ?_, ?_⟩
  · intro h
    simp [Suggestions.cycle, h]
  · intro k hk hlt
    simp only [Suggestions.cycle, hk]
    rw [if_pos (by omega)]
  · intro k hk heq
    simp only [Suggestions.cycle, hk]
    rw [if_neg (by omega)]
  · intro h
    simp [Suggestions.cycle, h]
  · intro k hk
    simp [Suggestions.cycle, hk]
  · intro h
    simp [Suggestions.cycle, h]

/-- Witness for C5 on the spec's `["yes", "no"]` scenario. -/
theorem c5_witness :
    (Suggestions.new [['y', 'e', 's'], ['n', 'o']] .Forward).index = some 0 ∧
    ((Suggestions.new [['y', 'e', 's'], ['n', 'o']] .Forward).cycle
      .Forward).index = some 1 :=
  ⟨(c5_suggestion_cycling [['y', 'e', 's'], ['n', 'o']] (by decide)
      (Suggestions.new [['y', 'e', 's'], ['n', 'o']] .Forward)).1,
    (c5_suggestion_cycling [['y', 'e', 's'], ['n', 'o']] (by decide)
      (Suggestions.new [['y', 'e', 's'], ['n', 'o']] .Forward)).2.2.2.1 0
      (by decide) (by decide)⟩

/-! ## C10: the overlay invariant -/

theorem suggInv_new {options : List (List Char)} (h : options ≠ [])
    (d : Direction) : SuggInv (Suggestions.new options d) := by
  have hlen : 0 < options.length := List.length_pos.mpr h
  constructor
  · simp [Suggestions.new]
    exact h
  · intro k hk
    simp only [Suggestions.new, Option.some_inj] at hk
    show k < (options.map Buffer.from).length
    rw [List.length_map]
    cases d with
    | Forward => simp at hk; omega
    | Backward => simp at hk; omega

theorem suggInv_cycle {s : Suggestions} (h : SuggInv s) (d : Direction) :
    SuggInv (s.cycle d) := by
  obtain ⟨hne, hidx⟩ := h
  have hlen : 0 < s.options.length := List.length_pos.mpr hne
  refine ⟨hne, ?_⟩
  intro k hk
  show k < s.options.length
  unfold Suggestions.cycle at hk
  simp only at hk
  cases d with
  | Forward =>
    cases hsi : s.index with
    | none =>
      rw [hsi] at hk
      have hk' : (some 0 : Option Nat) = some k := hk
      cases hk'
      omega
    | some i =>
      rw [hsi] at hk
      have hk' : (if i < s.options.length - 1 then some (i + 1) else none) =
          some k := hk
      by_cases hi : i < s.options.length - 1
      · rw [if_pos hi] at hk'
        cases hk'
        omega
      · rw [if_neg hi] at hk'
        cases hk'
  | Backward =>
    cases hsi : s.index with
    | none =>
      rw [hsi] at hk
      have hk' : (some (s.options.length - 1) : Option Nat) = some k := hk
      cases hk'
      omega
    | some i =>
      rw [hsi] at hk
      cases i with
      | zero =>
        have hk' : (none : Option Nat) = some k := hk
        cases hk'
      | succ j =>
        have hk' : (some j : Option Nat) = some k := hk
        injection hk' with hjk
        have := hidx (j + 1) hsi
        omega

theorem ctxInv_of_suggestions_none {ctx : Ctx} (h : ctx.suggestions = none) :
    CtxInv ctx := by
  intro s hs
  rw [h] at hs
  cases hs

theorem ctxInv_suggest (H : Hooks) {ctx : Ctx} (h : CtxInv ctx)
    (d : Direction) : CtxInv (ctx.suggest H d).1 := by
  unfold Ctx.suggest
  cases H.suggester with
  | none => exact h
  | some f =>
    cases hsg : ctx.suggestions with
    | some s =>
      show CtxInv (match (s.cycle d).index with
        | some _ => ({ ctx with suggestions := some (s.cycle d) }, 1)
        | none => ({ ctx with suggestions := some (s.cycle d) }, 1)).1
      have hinv : CtxInv { ctx with suggestions := some (s.cycle d) } := by
        intro s' hs'
        simp only at hs'
        cases hs'
        exact suggInv_cycle (h s hsg) d
      cases (s.cycle d).index <;> exact hinv
    | none =>
      show CtxInv (if (f ctx.buffer).isEmpty then (ctx, 1)
        else ({ ctx with
          suggestions := some (Suggestions.new (f ctx.buffer) d) }, 1)).1
      by_cases he : (f ctx.buffer).isEmpty
      · rw [if_pos he]
        exact h
      · rw [if_neg he]
        intro s' hs'
        simp only at hs'
        cases hs'
        exact suggInv_new (by simpa using he) d

/-- C10: whenever the overlay exists its option list is non-empty and its
index is `none` or in `[0, |options|)`; the invariant is established at
creation (overlays are only built from a non-empty suggestion list),
preserved by every cycle, preserved across every event-loop step, and makes
the `options[index]`, `swap_remove(index)` and `options.len() - 1` accesses
in bounds / free of underflow. -/
theorem c10_overlay_invariant :
    (∀ (options : List (List Char)) (d : Direction), options ≠ [] →
      SuggInv (Suggestions.new options d)) ∧
    (∀ (s : Suggestions) (d : Direction), SuggInv s → SuggInv (s.cycle d)) ∧
    (∀ (s : Suggestions) (k : Nat), SuggInv s → s.index = some k →
      k < s.options.length ∧ (s.options.get? k).isSome = true ∧
      s.take.isSome = true ∧ 1 ≤ s.options.length) ∧
    (∀ (H : Hooks) (seg : List Char → List (List Char)) (ctx : Ctx)
        (act : Action) (ctx' : Ctx) (n : Nat), CtxInv ctx →
      step H seg ctx act = some (.cont ctx' n) → CtxInv ctx') := by
  refine ⟨fun options d h => suggInv_new h d,
    fun s d h => suggInv_cycle h d, ?_, ?_⟩
  · intro s k hinv hk
    have hklt := hinv.2 k hk
    have hget : (s.options.get? k).isSome = true := by
      rw [Option.isSome_iff_ne_none]
      intro hnone
      rw [List.get?_eq_none] at hnone
      omega
    refine ⟨hklt, hget, ?_, ?_⟩
    · unfold Suggestions.take
      rw [hk]
      exact hget
    · have := List.length_pos.mpr hinv.1
      omega
  · intro H seg ctx act ctx' n hinv hstep
    cases act with
    | Write c =>
      simp only [step, Option.some_inj, StepResult.cont.injEq] at hstep
      exact hstep.1 ▸ ctxInv_of_suggestions_none (write_suggestions_none H ctx c)
    | Delete scope =>
      simp only [step, Option.some_inj, StepResult.cont.injEq] at hstep
      exact hstep.1 ▸
        ctxInv_of_suggestions_none (delete_suggestions_none H seg ctx scope)
    | Move r d =>
      simp only [step] at hstep
      cases hmv : ctx.move_cursor H seg r d with
      | none =>
        rw [hmv] at hstep
        cases hstep
      | some p =>
        rw [hmv] at hstep
        simp only [Option.map_some', Option.some_inj,
          StepResult.cont.injEq] at hstep
        have hsugg : p.1.suggestions = none := by
          unfold Ctx.move_cursor at hmv
          by_cases hcond : ctx.try_take_suggestion.buffer.at_end &&
              (d == Direction.Forward)
          · rw [if_pos hcond] at hmv
            have := @complete_suggestions H ctx.try_take_suggestion p.1 r p.2
              (by rw [hmv])
            rw [this]
            exact try_take_suggestion_suggestions ctx
          · rw [if_neg hcond] at hmv
            simp only [Option.some_inj] at hmv
            rw [← hmv]
            exact try_take_suggestion_suggestions ctx
        exact hstep.1 ▸ ctxInv_of_suggestions_none hsugg
    | Complete r =>
      simp only [step] at hstep
      cases hcm : ctx.complete H r with
      | none =>
        rw [hcm] at hstep
        cases hstep
      | some p =>
        rw [hcm] at hstep
        simp only [Option.map_some', Option.some_inj,
          StepResult.cont.injEq] at hstep
        have hsugg := @complete_suggestions H ctx p.1 r p.2 (by rw [hcm])
        intro s hs
        apply hinv s
        rw [← hstep.1] at hs
        rw [hsugg] at hs
        exact hs
    | Suggest d =>
      simp only [step, Option.some_inj, StepResult.cont.injEq] at hstep
      exact hstep.1 ▸ ctxInv_suggest H hinv d
    | NoOp =>
      simp only [step, Option.some_inj, StepResult.cont.injEq] at hstep
      exact hstep.1 ▸ hinv
    | Cancel =>
      simp only [step] at hstep
      by_cases hsg : ctx.is_suggesting
      · rw [if_pos hsg] at hstep
        simp only [Option.some_inj, StepResult.cont.injEq] at hstep
        exact hstep.1 ▸ ctxInv_of_suggestions_none rfl
      · rw [if_neg hsg] at hstep
        cases hstep
    | Accept =>
      simp only [step] at hstep
      cases hstep

/-- Witness for C10 at a one-option overlay. -/
theorem c10_witness :
    SuggInv (Suggestions.new [['a']] .Forward) ∧
    (Suggestions.new [['a']] .Forward).take.isSome = true :=
  ⟨c10_overlay_invariant.1 [['a']] .Forward (by decide),
    (c10_overlay_invariant.2.2.1 (Suggestions.new [['a']] .Forward) 0
      (c10_overlay_invariant.1 [['a']] .Forward (by decide)) rfl).2.2.1⟩

/-! ## C2: materialization of the selected suggestion -/

/-- C2 (counterexample): in state Suggesting with `index = Some 0` over the
single option `"xyz"`, dispatching `Complete(Line)` does not materialize:
`Context::complete` never calls `try_take_suggestion`, so the context is
returned unchanged — the buffer still holds `"ab"` (not `"xyz"`) and the
overlay is still open. -/
theorem c2_counterexample :
    step ⟨none, none⟩ splitRuns
        ⟨⟨['a', 'b'], 2⟩, none, some ⟨some 0, [⟨['x', 'y', 'z'], 3⟩]⟩⟩
        (.Complete .Line) =
      some (.cont ⟨⟨['a', 'b'], 2⟩, none,
        some ⟨some 0, [⟨['x', 'y', 'z'], 3⟩]⟩⟩ 0) ∧
    (some ⟨some 0, [(⟨['x', 'y', 'z'], 3⟩ : Buffer)]⟩ : Option Suggestions) ≠
      none ∧
    (⟨['a', 'b'], 2⟩ : Buffer) ≠ ⟨['x', 'y', 'z'], 3⟩ := by
  refine ⟨rfl, by decide, by decide⟩

/-- C2 (amended): in state Suggesting with a selected option
(`index = Some k`, `options[k] = bk`), dispatching Write, Delete, Move or
Accept behaves exactly as on the materialized context — overlay closed and
the buffer replaced by `bk`, whose cursor is at its end whenever the overlay
options came from `Suggestions::new` — and only then applies the action;
Complete, by contrast, does not materialize: it leaves the overlay open. -/
theorem c2_materialize (H : Hooks) (seg : List Char → List (List Char))
    (ctx : Ctx) (s : Suggestions) (k : Nat) (bk : Buffer)
    (hs : ctx.suggestions = some s) (hk : s.index = some k)
    (hopt : s.options.get? k = some bk) :
    (∀ c, step H seg ctx (.Write c) =
      step H seg (materialize ctx bk) (.Write c)) ∧
    (∀ scope, step H seg ctx (.Delete scope) =
      step H seg (materialize ctx bk) (.Delete scope)) ∧
    (∀ r d, step H seg ctx (.Move r d) =
      step H seg (materialize ctx bk) (.Move r d)) ∧
    (step H seg ctx .Accept = step H seg (materialize ctx bk) .Accept) ∧
    (materialize ctx bk).suggestions = none ∧
    (materialize ctx bk).buffer = bk ∧
    ((∀ o ∈ s.options, o.cursor = utf8Len o.string) →
      bk.cursor = utf8Len bk.string) ∧
    (∀ r ctx' n, step H seg ctx (.Complete r) = some (.cont ctx' n) →
      ctx'.suggestions = some s) := by
  have hmat : ctx.try_take_suggestion = materialize ctx bk :=
    try_take_of_selected hs hk hopt
  have hmat2 : (materialize ctx bk).try_take_suggestion = materialize ctx bk :=
    try_take_of_none rfl
  refine ⟨?_, ?_, ?_, ?_, rfl, rfl, ?_, ?_⟩
  · intro c
    simp only [step, Ctx.write, hmat, hmat2]
  · intro scope
    simp only [step, Ctx.delete, hmat, hmat2]
  · intro r d
    simp only [step, Ctx.move_cursor, hmat, hmat2]
  · simp only [step, Ctx.buffer_as_string, hmat, hmat2]
  · intro hall
    exact hall bk (List.get?_mem hopt)
  · intro r ctx' n hstep
    simp only [step] at hstep
    cases hcm : ctx.complete H r with
    | none =>
      rw [hcm] at hstep
      cases hstep
    | some p =>
      rw [hcm] at hstep
      simp only [Option.map_some', Option.some_inj,
        StepResult.cont.injEq] at hstep
      have hps := @complete_suggestions H ctx p.1 r p.2 (by rw [hcm])
      rw [← hstep.1, hps, hs]

/-- Witness for C2 on a concrete Suggesting context, Accept conjunct. -/
theorem c2_witness :
    step ⟨none, none⟩ splitRuns
        ⟨⟨['a', 'b'], 2⟩, none, some ⟨some 0, [⟨['x', 'y', 'z'], 3⟩]⟩⟩
        .Accept =
      step ⟨none, none⟩ splitRuns
        (materialize
          ⟨⟨['a', 'b'], 2⟩, none, some ⟨some 0, [⟨['x', 'y', 'z'], 3⟩]⟩⟩
          ⟨['x', 'y', 'z'], 3⟩) .Accept :=
  (c2_materialize ⟨none, none⟩ splitRuns
    ⟨⟨['a', 'b'], 2⟩, none, some ⟨some 0, [⟨['x', 'y', 'z'], 3⟩]⟩⟩
    ⟨some 0, [⟨['x', 'y', 'z'], 3⟩]⟩ 0 ⟨['x', 'y', 'z'], 3⟩
    rfl rfl rfl).2.2.2.1

/-! ## C7: Cancel with and without an open overlay -/

/-- C7 (counterexample): a reachable trace on which Cancel with an open
overlay does not restore the pre-open buffer byte-for-byte.  From the
Editing context with buffer `"hi"` (cursor 2) and pending completion `" w"`,
`Suggest(Forward)` opens the overlay over `["yes"]`; a `Complete(Line)`
dispatched next accepts the completion into the buffer (`"hi w"`, cursor 4)
while leaving the overlay open; the following `Cancel` discards the overlay
and keeps the loop running with the mutated buffer `"hi w"` — not the
pre-open `"hi"` with cursor 2. -/
theorem c7_counterexample :
    step ⟨some fun _ => some [' ', 'w'], some fun _ => [['y', 'e', 's']]⟩
        splitRuns ⟨⟨['h', 'i'], 2⟩, some [' ', 'w'], none⟩
        (.Suggest .Forward) =
      some (.cont ⟨⟨['h', 'i'], 2⟩, some [' ', 'w'],
        some ⟨some 0, [⟨['y', 'e', 's'], 3⟩]⟩⟩ 1) ∧
    step ⟨some fun _ => some [' ', 'w'], some fun _ => [['y', 'e', 's']]⟩
        splitRuns ⟨⟨['h', 'i'], 2⟩, some [' ', 'w'],
          some ⟨some 0, [⟨['y', 'e', 's'], 3⟩]⟩⟩
        (.Complete .Line) =
      some (.cont ⟨⟨['h', 'i', ' ', 'w'], 4⟩, some [' ', 'w'],
        some ⟨some 0, [⟨['y', 'e', 's'], 3⟩]⟩⟩ 1) ∧
    step ⟨some fun _ => some [' ', 'w'], some fun _ => [['y', 'e', 's']]⟩
        splitRuns ⟨⟨['h', 'i', ' ', 'w'], 4⟩, some [' ', 'w'],
          some ⟨some 0, [⟨['y', 'e', 's'], 3⟩]⟩⟩
        .Cancel =
      some (.cont ⟨⟨['h', 'i', ' ', 'w'], 4⟩, some [' ', 'w'], none⟩ 1) ∧
    (⟨['h', 'i', ' ', 'w'], 4⟩ : Buffer) ≠ ⟨['h', 'i'], 2⟩ :=
  ⟨rfl, rfl, rfl, by decide⟩

/-- C7 (amended): a `Cancel` dispatched while the overlay is open discards
the overlay, keeps the read loop running, and leaves the current buffer
untouched (text and cursor); that buffer is the pre-open one byte-for-byte
whenever only `Suggest` actions were dispatched since the overlay opened
(`suggest` never touches the buffer), but not in general — a `Complete`
dispatched under an open overlay mutates the buffer without closing the
overlay.  A `Cancel` with no overlay open makes `read_line` return
`Canceled` carrying the current buffer with text and cursor intact. -/
theorem c7_amended (H : Hooks) (seg : List Char → List (List Char)) :
    (∀ (ctx : Ctx) (s : Suggestions), ctx.suggestions = some s →
      step H seg ctx .Cancel =
        some (.cont { ctx with suggestions := none } 1)) ∧
    (∀ (ctx₀ : Ctx) (ds : List Direction),
      (ds.foldl (fun c d => (c.suggest H d).1) ctx₀).buffer = ctx₀.buffer) ∧
    (∀ ctx : Ctx, ctx.suggestions = none →
      step H seg ctx .Cancel = some (.done (.Canceled ctx.buffer))) := by
  have hfold : ∀ (ds : List Direction) (c : Ctx),
      (ds.foldl (fun c d => (c.suggest H d).1) c).buffer = c.buffer := by
    intro ds
    induction ds with
    | nil => intro c; rfl
    | cons d ds ih =>
      intro c
      rw [List.foldl_cons, ih, suggest_buffer]
  refine ⟨?_, fun ctx₀ ds => hfold ds ctx₀, ?_⟩
  · intro ctx s hs
    simp [step, Ctx.is_suggesting, Ctx.cancel_suggestion, hs]
  · intro ctx h
    simp [step, Ctx.is_suggesting, Ctx.into_buffer, h]

/-- Witness for C7's amended statement: Cancel over an open overlay keeps
the loop running with the buffer untouched; Cancel with no overlay returns
`Canceled` with the buffer intact. -/
theorem c7_witness :
    step ⟨none, none⟩ splitRuns
        ⟨⟨['h', 'i'], 2⟩, none, some ⟨some 0, [⟨['y', 'e', 's'], 3⟩]⟩⟩
        .Cancel =
      some (.cont ⟨⟨['h', 'i'], 2⟩, none, none⟩ 1) ∧
    step ⟨none, none⟩ splitRuns ⟨⟨['h', 'i'], 2⟩, none, none⟩ .Cancel =
      some (.done (.Canceled ⟨['h', 'i'], 2⟩)) :=
  ⟨(c7_amended ⟨none, none⟩ splitRuns).1
      ⟨⟨['h', 'i'], 2⟩, none, some ⟨some 0, [⟨['y', 'e', 's'], 3⟩]⟩⟩
      ⟨some 0, [⟨['y', 'e', 's'], 3⟩]⟩ rfl,
    (c7_amended ⟨none, none⟩ splitRuns).2.2 ⟨⟨['h', 'i'], 2⟩, none, none⟩ rfl⟩

/-! ## C8: redraw accounting of the event loop -/

theorem try_take_completion (ctx : Ctx) :
    ctx.try_take_suggestion.completion = ctx.completion := by
  unfold Ctx.try_take_suggestion
  cases h : ctx.suggestions with
  | none => rfl
  | some s =>
    show (match s.take with
      | some b => { ctx with suggestions := none, buffer := b }
      | none => ({ ctx with suggestions := none } : Ctx)).completion =
      ctx.completion
    cases s.take <;> rfl

theorem complete_of_completion_none {H : Hooks} {ctx : Ctx}
    (h : ctx.completion = none) (r : Range) :
    ctx.complete H r = some ({ ctx with buffer := ctx.buffer.go_to_end }, 0) := by
  obtain ⟨b, comp, sugg⟩ := ctx
  subst h
  rfl

theorem complete_of_completion_some {H : Hooks} {ctx : Ctx} {t : List Char}
    (h : ctx.completion = some t) (hne : t ≠ []) (r : Range) :
    ∃ ctx', ctx.complete H r = some (ctx', 1) := by
  obtain ⟨b, comp, sugg⟩ := ctx
  subst h
  cases r with
  | Line => exact ⟨_, rfl⟩
  | Word => exact ⟨_, rfl⟩
  | Single =>
    cases t with
    | nil => exact absurd rfl hne
    | cons c cs => exact ⟨_, rfl⟩

theorem suggest_redraws (H : Hooks) (ctx : Ctx) (d : Direction) :
    (ctx.suggest H d).2 = 1 := by
  unfold Ctx.suggest
  cases H.suggester with
  | none => rfl
  | some f =>
    cases ctx.suggestions with
    | some s =>
      show (match (s.cycle d).index with
        | some _ => ({ ctx with suggestions := some (s.cycle d) }, 1)
        | none => ({ ctx with suggestions := some (s.cycle d) }, 1)).2 = 1
      cases (s.cycle d).index <;> rfl
    | none =>
      show (if (f ctx.buffer).isEmpty then (ctx, 1)
        else ({ ctx with
          suggestions := some (Suggestions.new (f ctx.buffer) d) }, 1)).2 = 1
      by_cases h : (f ctx.buffer).isEmpty
      · rw [if_pos h]
      · rw [if_neg h]

/-- C8 (counterexample): `Complete(Line)` with no completion pending emits
zero redraws — `Context::complete` returns `Ok(())` without calling the
writer — while the claim demands exactly one per non-NoOp,
non-terminating action. -/
theorem c8_counterexample :
    step ⟨none, none⟩ splitRuns ⟨⟨['a'], 1⟩, none, none⟩ (.Complete .Line) =
      some (.cont ⟨⟨['a'], 1⟩, none, none⟩ 0) ∧ (0 : Nat) ≠ 1 :=
  ⟨rfl, by decide⟩

/-- C8 (amended): each event-loop iteration whose resolved action is not
NoOp and does not terminate the loop emits exactly one writer redraw, except
that `Complete` — directly, or reached through `Move(_, Forward)` with the
cursor at the end — emits zero redraws when no completion is pending. -/
theorem c8_redraw_accounting (H : Hooks) (seg : List Char → List (List Char))
    (ctx : Ctx) :
    (∀ c, ∃ ctx', step H seg ctx (.Write c) = some (.cont ctx' 1)) ∧
    (∀ scope, ∃ ctx', step H seg ctx (.Delete scope) = some (.cont ctx' 1)) ∧
    (∀ d, ∃ ctx', step H seg ctx (.Suggest d) = some (.cont ctx' 1)) ∧
    (ctx.is_suggesting = true →
      ∃ ctx', step H seg ctx .Cancel = some (.cont ctx' 1)) ∧
    (ctx.completion = none → ∀ r,
      ∃ ctx', step H seg ctx (.Complete r) = some (.cont ctx' 0)) ∧
    (∀ r t, ctx.completion = some t → t ≠ [] →
      ∃ ctx', step H seg ctx (.Complete r) = some (.cont ctx' 1)) ∧
    (∀ r, ∃ ctx', step H seg ctx (.Move r .Backward) = some (.cont ctx' 1)) ∧
    (∀ r d, ctx.try_take_suggestion.buffer.at_end = false →
      ∃ ctx', step H seg ctx (.Move r d) = some (.cont ctx' 1)) ∧
    (∀ r, ctx.try_take_suggestion.buffer.at_end = true →
      ctx.completion = none →
      ∃ ctx', step H seg ctx (.Move r .Forward) = some (.cont ctx' 0)) ∧
    (∀ r t, ctx.try_take_suggestion.buffer.at_end = true →
      ctx.completion = some t → t ≠ [] →
      ∃ ctx', step H seg ctx (.Move r .Forward) = some (.cont ctx' 1)) := by
  refine ⟨fun c => ⟨_, rfl⟩, fun scope => ⟨_, rfl⟩, ?_, ?_, ?_, ?_, ?_, ?_,
    ?_, ?_⟩
  · intro d
    refine ⟨(ctx.suggest H d).1, ?_⟩
    show some (StepResult.cont (ctx.suggest H d).1 (ctx.suggest H d).2) =
      some (StepResult.cont (ctx.suggest H d).1 1)
    rw [suggest_redraws]
  · intro hs
    simp only [step, hs, if_true]
    exact ⟨_, rfl⟩
  · intro hc r
    simp only [step, complete_of_completion_none hc r, Option.map_some']
    exact ⟨_, rfl⟩
  · intro r t hc hne
    obtain ⟨ctx', hctx'⟩ := @complete_of_completion_some H ctx t hc hne r
    simp only [step, hctx', Option.map_some']
    exact ⟨ctx', rfl⟩
  · intro r
    simp only [step, Ctx.move_cursor]
    simp only [show (Direction.Backward == Direction.Forward) = false from rfl,
      Bool.and_false, Bool.false_eq_true, if_false, Option.map_some']
    exact ⟨_, rfl⟩
  · intro r d hae
    simp only [step, Ctx.move_cursor, hae, Bool.false_and, Bool.false_eq_true,
      if_false, Option.map_some']
    exact ⟨_, rfl⟩
  · intro r hae hc
    have hc' : ctx.try_take_suggestion.completion = none := by
      rw [try_take_completion]
      exact hc
    simp only [step, Ctx.move_cursor, hae,
      show (Direction.Forward == Direction.Forward) = true from rfl,
      Bool.and_self, if_true, complete_of_completion_none hc' r,
      Option.map_some']
    exact ⟨_, rfl⟩
  · intro r t hae hc hne
    have hc' : ctx.try_take_suggestion.completion = some t := by
      rw [try_take_completion]
      exact hc
    obtain ⟨ctx', hctx'⟩ :=
      @complete_of_completion_some H ctx.try_take_suggestion t hc' hne r
    simp only [step, Ctx.move_cursor, hae,
      show (Direction.Forward == Direction.Forward) = true from rfl,
      Bool.and_self, if_true, hctx', Option.map_some']
    exact ⟨ctx', rfl⟩

/-- Witness for C8: a `Write` emits one redraw, a pending-completion-free
`Complete` emits zero. -/
theorem c8_witness :
    (∃ ctx', step ⟨none, none⟩ splitRuns ⟨⟨['a'], 1⟩, none, none⟩
      (.Write 'b') = some (.cont ctx' 1)) ∧
    (∃ ctx', step ⟨none, none⟩ splitRuns ⟨⟨['a'], 1⟩, none, none⟩
      (.Complete .Word) = some (.cont ctx' 0)) :=
  ⟨(c8_redraw_accounting ⟨none, none⟩ splitRuns
      ⟨⟨['a'], 1⟩, none, none⟩).1 'b',
    (c8_redraw_accounting ⟨none, none⟩ splitRuns
      ⟨⟨['a'], 1⟩, none, none⟩).2.2.2.2.1 rfl .Word⟩

end Rucline
